import Mathlib

/-!
A verification development for the `aem-purge-packages` script: the package
lifecycle decision engine (conventionality filter, version comparison,
best-version selection, snapshot correlation, size accounting, purge
orchestration) is embedded shallowly and its specified properties are settled.

Modelling conventions:
* Paths and size strings are `List Char`.
* Python regular expressions are modelled by explicit backtracking matchers
  with the same leftmost/greedy semantics; `.` matches any character except
  a newline, `$` matches at the end of the string or just before a final
  newline, and `\d`, `\s`, `\w` are modelled at their ASCII meaning.
* A Python exception (IndexError on `a[0]` of an empty list, ValueError from
  `int`, AttributeError from calling `.groups()` on a failed match) is
  modelled by an `Option`-valued function returning `none`.
* CPython's interning of small integers and one-character strings makes the
  script's `is` comparisons behave as value equality, and they are modelled
  as such.
* The floating-point size arithmetic is modelled over `ℚ` with the exact
  coefficient values 1e-6, 1e-3 and 1.
-/

/-- ASCII decimal digit, the model of the regex class `\d`. -/
def isDigitC (c : Char) : Bool := c.isDigit

/-- ASCII whitespace, the model of the regex class `\s`. -/
def isSpaceC (c : Char) : Bool :=
  decide (c = ' ') || decide (c = '\t') || decide (c = '\n') || decide (c = '\r') ||
  decide (c = '\x0b') || decide (c = '\x0c')

/-- ASCII word character, the model of the regex class `\w`. -/
def isWordC (c : Char) : Bool := c.isAlphanum || decide (c = '_')

/-- The literal character list of `".zip"`. -/
def zipL : List Char := (".zip").toList

/-- The literal character list of `".snapshot"`. -/
def snapL : List Char := (".snapshot").toList

/-- Does `needle` occur at the very start of `hay`? -/
def leadsWith : List Char → List Char → Bool
  | [], _ => true
  | _ :: _, [] => false
  | a :: as, b :: bs => decide (a = b) && leadsWith as bs

/-- Does `needle` occur as a contiguous substring of `hay`?  This is the model
of Python's `needle in hay` on strings. -/
def hasSub (needle : List Char) : List Char → Bool
  | [] => leadsWith needle []
  | c :: rest => leadsWith needle (c :: rest) || hasSub needle rest

/-- Split a character list on a separator character, the model of
Python's `str.split(sep)`.  The result is always nonempty. -/
def splitOnC (sep : Char) : List Char → List (List Char)
  | [] => [[]]
  | c :: rest =>
    match splitOnC sep rest with
    | [] => [[c]]
    | t :: ts => if c = sep then [] :: t :: ts else (c :: t) :: ts

/-- Join character lists with a separator character, the model of
Python's `sep.join(parts)`. -/
def joinWith (sep : Char) : List (List Char) → List Char
  | [] => []
  | [t] => t
  | t :: ts => t ++ sep :: joinWith sep ts

/-- One stored package record: `{"path": ..., "size": ...}`. -/
structure Package where
  path : List Char
  size : List Char
  deriving DecidableEq

/-- Candidates for a greedy `\d{1,n}` match at the start of `s`, longest
first, as pairs (matched digits, remainder). -/
def digitsTake (s : List Char) (maxN : Nat) : List (List Char × List Char) :=
  let run := min maxN (s.takeWhile isDigitC).length
  (List.range run).map fun j => (s.take (run - j), s.drop (run - j))

/-- Candidates for the optional group `(\.\d{1,m})?` at the start of `s`, in
backtracking priority order (present and greedy first, then absent). -/
def optDot (s : List Char) (m : Nat) : List (List Char × List Char) :=
  match s with
  | [] => [([], [])]
  | c :: r =>
    if c = '.' then ((digitsTake r m).map fun p => (c :: p.1, p.2)) ++ [([], c :: r)]
    else [([], c :: r)]

/-- Candidates for the optional group `(.\d{1,m})?` at the start of `s` — the
script's third version group, whose separator is an unescaped dot and hence
matches any character except newline — in backtracking priority order. -/
def optAny (s : List Char) (m : Nat) : List (List Char × List Char) :=
  match s with
  | [] => [([], [])]
  | c :: r =>
    if c = '\n' then [([], c :: r)]
    else ((digitsTake r m).map fun p => (c :: p.1, p.2)) ++ [([], c :: r)]

/-- All candidates for the version group `(\d{1,3}(\.\d{1,3})?(.\d{1,4})?)` at
the start of `s`, in backtracking priority order, as pairs
(matched version string, remainder). -/
def versionCandidates (s : List Char) : List (List Char × List Char) :=
  (digitsTake s 3).flatMap fun p1 =>
    (optDot p1.2 3).flatMap fun p2 =>
      (optAny p2.2 4).map fun p3 => (p1.1 ++ p2.1 ++ p3.1, p3.2)

/-- Greedy match of `version\.zip` (no end anchor) at the start of `s`,
returning the version string of the first (highest-priority) candidate that
is followed by the literal `.zip`. -/
def matchVersionZip (s : List Char) : Option (List Char) :=
  (versionCandidates s).findSome? fun vr => if leadsWith zipL vr.2 then some vr.1 else none

/-- Does `version(\.zip)$` match all of `s`?  Per Python `$` semantics the
match may also end just before a single trailing newline. -/
def convEnd (s : List Char) : Bool :=
  (versionCandidates s).any fun vr =>
    decide (vr.2 = zipL) || decide (vr.2 = zipL ++ ['\n'])

/-- Does the anchored pattern `(^.*-)(version)(\.zip)$` of `is_conventional`
match `s`?  The leading `.*` cannot cross a newline. -/
def convScan : List Char → Bool
  | [] => false
  | c :: rest =>
    if c = '\n' then false
    else (decide (c = '-') && convEnd rest) || convScan rest

/-- The script's `is_conventional`: the path must not contain `.snapshot` as a
substring, and must match `(^.*-)(\d{1,3}(\.\d{1,3})?(.\d{1,4})?)(\.zip)$`
(a successful match always has 5 groups, so the length check is vacuous). -/
def is_conventional (p : Package) : Bool :=
  !hasSub snapL p.path && convScan p.path

/-- Greedy leftmost match of `(^.*-)(version)(\.zip)` with no end anchor: the
`.*` is maximised first (deeper dash positions are preferred), then the
version group is matched greedily.  Returns (group 1 = prefix including the
dash, group 2 = version string). -/
def greedyParse : List Char → Option (List Char × List Char)
  | [] => none
  | c :: rest =>
    if c = '\n' then none
    else
      match greedyParse rest with
      | some nv => some (c :: nv.1, nv.2)
      | none =>
        if c = '-' then
          match matchVersionZip rest with
          | some v => some ([c], v)
          | none => none
        else none

/-- The script's `separate_name_from_version`: on a regex match returns
`(group(1), group(2).split('.'))`; on no match the script would raise
(AttributeError on `None.group`), modelled by `none`. -/
def separate_name_from_version (path : List Char) : Option (List Char × List (List Char)) :=
  match greedyParse path with
  | some nv => some (nv.1, splitOnC '.' nv.2)
  | none => none

/-- Family identity assigned by the parser (group 1), with `[]` as the
irrelevant default when the parse fails. -/
def parsedName (p : Package) : List Char :=
  match separate_name_from_version p.path with
  | some nv => nv.1
  | none => []

/-- Version token sequence assigned by the parser (group 2 split on dots),
with `[]` as the irrelevant default when the parse fails. -/
def parsedVer (p : Package) : List (List Char) :=
  match separate_name_from_version p.path with
  | some nv => nv.2
  | none => []

/-- Python `str.strip()` at its ASCII meaning. -/
def pyStrip (s : List Char) : List Char :=
  ((s.dropWhile isSpaceC).reverse.dropWhile isSpaceC).reverse

/-- Numeric value of a digit string. -/
def digitsVal (l : List Char) : Nat :=
  l.foldl (fun n c => 10 * n + (c.toNat - 48)) 0

/-- Tail of a Python integer literal after its first digit: digits with
single underscores allowed between digits. -/
def pyDigitsTail : List Char → Bool
  | [] => true
  | '_' :: c :: rest => c.isDigit && pyDigitsTail rest
  | c :: rest => c.isDigit && pyDigitsTail rest

/-- Is `l` a valid unsigned Python integer literal body? -/
def pyDigitsOk : List Char → Bool
  | [] => false
  | c :: rest => c.isDigit && pyDigitsTail rest

/-- The model of Python's `int(str)`: optional surrounding whitespace, an
optional sign, then digits (single underscores allowed between digits).
`none` models the ValueError raised otherwise. -/
def pyInt (s : List Char) : Option Int :=
  match pyStrip s with
  | '+' :: r =>
    if pyDigitsOk r then some ((digitsVal (r.filter fun c => !decide (c = '_')) : Int)) else none
  | '-' :: r =>
    if pyDigitsOk r then some (-(digitsVal (r.filter fun c => !decide (c = '_')) : Int)) else none
  | r =>
    if pyDigitsOk r then some ((digitsVal (r.filter fun c => !decide (c = '_')) : Int)) else none

/-- The script's `compare_version`: subtract the integer values of the head
tokens and recurse while the difference is zero.  Indexing `a[0]` or `b[0]`
on an exhausted list raises IndexError, and a non-numeric token raises
ValueError inside `int`; both are modelled by `none`. -/
def compare_version : List (List Char) → List (List Char) → Option Int
  | [], _ => none
  | _ :: _, [] => none
  | a :: as, b :: bs =>
    match pyInt a with
    | none => none
    | some x =>
      match pyInt b with
      | none => none
      | some y => if x - y = 0 then compare_version as bs else some (x - y)

/-- Insertion-ordered dictionary from family identities to version token
sequences, the model of the script's `package_dict`. -/
abbrev VDict := List (List Char × List (List Char))

/-- Dictionary lookup (first matching key). -/
def dictFind (d : VDict) (k : List Char) : Option (List (List Char)) :=
  match d with
  | [] => none
  | kv :: rest => if k = kv.1 then some kv.2 else dictFind rest k

/-- Dictionary update: replace the value of an existing key in place, or
append a new key at the end, as a Python dict does. -/
def dictSet (d : VDict) (k : List Char) (v : List (List Char)) : VDict :=
  match d with
  | [] => [(k, v)]
  | kv :: rest => if k = kv.1 then (k, v) :: rest else kv :: dictSet rest k v

/-- One iteration of the `determine_best_packages` loop body on `package`:
parse, then store when the family is new or the stored version compares
less than the new one. -/
def stepBest (d : VDict) (p : Package) : Option VDict :=
  match separate_name_from_version p.path with
  | none => none
  | some nv =>
    match dictFind d nv.1 with
    | none => some (dictSet d nv.1 nv.2)
    | some cur =>
      match compare_version cur nv.2 with
      | none => none
      | some c => some (if c < 0 then dictSet d nv.1 nv.2 else d)

/-- The full first-pass loop of `determine_best_packages`. -/
def buildBest : VDict → List Package → Option VDict
  | d, [] => some d
  | d, p :: rest =>
    match stepBest d p with
    | none => none
    | some d2 => buildBest d2 rest

/-- The second-pass reconstruction `[key + '.'.join(value) + '.zip' ...]`. -/
def bestPaths (d : VDict) : List (List Char) :=
  d.map fun kv => kv.1 ++ joinWith '.' kv.2 ++ zipL

/-- The script's `determine_best_packages`: build the family → best-version
dictionary, then keep the packages whose path equals a reconstructed best
path.  `none` models an exception escaping the loop. -/
def determine_best_packages (packages : List Package) : Option (List Package) :=
  match buildBest [] packages with
  | none => none
  | some d => some (packages.filter fun p => decide (p.path ∈ bestPaths d))

/-- Greedy match of `.*\.zip` at the start of `s` (group 3 of the filename
regex, without its leading `/`): the longest prefix of `s` that ends with
`.zip`, or `none` when no prefix does. -/
def zipTrunc : List Char → Option (List Char)
  | [] => none
  | c :: rest =>
    match zipTrunc rest with
    | some t => some (c :: t)
    | none => if leadsWith zipL (c :: rest) then some zipL else none

/-- Greedy match of `(.*)(/)(.*\.zip)` within one newline-free stretch: the
last `/` that still has a `.zip` after it wins, returning group 3. -/
def stretchGp : List Char → Option (List Char)
  | [] => none
  | c :: rest =>
    match stretchGp rest with
    | some g => some g
    | none => if c = '/' then zipTrunc rest else none

/-- The script's `get_package_name_from_path`: search `(.*)(/)(.*\.zip)` and
return group 3.  Since `.` does not cross newlines, the search scans the
newline-separated stretches left to right.  On no match the script calls
`.groups()` on `None` and raises AttributeError, modelled by `none`. -/
def get_package_name_from_path (path : List Char) : Option (List Char) :=
  (splitOnC '\n' path).findSome? stretchGp

/-- First loop of `find_outdated_snapshots`: collect the terminal filename of
every outdated package (the `name is not None` guard is unreachable because
a successful regex match always yields group 3, and a failed match raises). -/
def namesLoop : List Package → Option (List (List Char))
  | [] => some []
  | p :: rest =>
    match get_package_name_from_path p.path with
    | none => none
    | some n =>
      match namesLoop rest with
      | none => none
      | some ns => some (n :: ns)

/-- Second loop of `find_outdated_snapshots`: keep the packages whose path
contains `.snapshot` and whose terminal filename is among the outdated
names (the `and` short-circuits, so the filename regex only runs on
snapshot paths). -/
def snapLoop (names : List (List Char)) : List Package → Option (List Package)
  | [] => some []
  | p :: rest =>
    if hasSub snapL p.path then
      match get_package_name_from_path p.path with
      | none => none
      | some n =>
        match snapLoop names rest with
        | none => none
        | some r => some (if n ∈ names then p :: r else r)
    else snapLoop names rest

/-- The script's `find_outdated_snapshots`. -/
def find_outdated_snapshots (packages outdated : List Package) : Option (List Package) :=
  match namesLoop outdated with
  | none => none
  | some names => snapLoop names packages

/-- Outcome of one run of the decision engine in `main`:
`nothingToPurge` models the `exit(0)` taken before any prompt when no
outdated package exists, `purge outdated accounted` models reaching the
confirmation prompt with `outdated` submitted to the deletion loop and
`accounted = outdated + snapshots` used for size accounting, and `error`
models an exception escaping `main`. -/
inductive RunOutcome where
  | nothingToPurge : RunOutcome
  | purge : List Package → List Package → RunOutcome
  | error : RunOutcome
  deriving DecidableEq

/-- The decision pipeline of `main` on the fetched package list: filter
conventional records, select best versions, derive the outdated set, exit
early when it is empty, otherwise correlate snapshots.  The size totals
printed by the script do not influence control flow and are computed by
`calculate_size` separately. -/
def mainPlan (packages : List Package) : RunOutcome :=
  let conventional := packages.filter is_conventional
  match determine_best_packages conventional with
  | none => RunOutcome.error
  | some best =>
    let outdated := conventional.filter fun p => !decide (p ∈ best)
    if outdated.length = 0 then RunOutcome.nothingToPurge
    else
      match find_outdated_snapshots packages outdated with
      | none => RunOutcome.error
      | some snaps => RunOutcome.purge outdated (outdated ++ snaps)

/-- Observable interactions of a run: the bulk confirmation prompt, the
per-item prompt, and a delete POST for a path. -/
inductive RunAct where
  | prompt : RunAct
  | itemPrompt : List Char → RunAct
  | deleteCall : List Char → RunAct
  deriving DecidableEq

/-- The actions of `purge_packages`: per outdated package, when `force` is
set the delete request is sent directly; otherwise a per-item prompt is
shown and the delete request is sent only on a yes answer. -/
def purgeActions (outdated : List Package) (force : Bool) (itemAnswer : List Char → Bool) :
    List RunAct :=
  outdated.flatMap fun p =>
    if force then [RunAct.deleteCall p.path]
    else
      RunAct.itemPrompt p.path ::
        (if itemAnswer p.path then [RunAct.deleteCall p.path] else [])

/-- The interaction trace of one run of `main`: nothing on the early exit (or
on an exception), otherwise the bulk prompt followed, when answered yes, by
the deletion loop over the outdated non-snapshot records. -/
def mainActions (packages : List Package) (bulkYes force : Bool)
    (itemAnswer : List Char → Bool) : List RunAct :=
  match mainPlan packages with
  | RunOutcome.nothingToPurge => []
  | RunOutcome.error => []
  | RunOutcome.purge outdated _ =>
    RunAct.prompt :: (if bulkYes then purgeActions outdated force itemAnswer else [])

/-- Scanner for the size pattern `(\d+)(\s\w{2})`: `prevD` records whether
the previous character was a digit, so that only the leftmost position of
each maximal digit run is tried as a start of `\d+` (a later start inside
the same run fails at the same place). -/
def fsAux : Bool → List Char → Option (Nat × List Char)
  | _, [] => none
  | prevD, c :: rest =>
    if !prevD && isDigitC c then
      match List.dropWhile isDigitC rest with
      | w :: u1 :: u2 :: _ =>
        if isSpaceC w && isWordC u1 && isWordC u2 then
          some (digitsVal (c :: List.takeWhile isDigitC rest), [w, u1, u2])
        else fsAux true rest
      | _ => none
    else fsAux (isDigitC c) rest

/-- Leftmost match of the size pattern `(\d+)(\s\w{2})` in `s`, returning
(integer value of group 1, the three characters of group 2). -/
def findSizeMatch (s : List Char) : Option (Nat × List Char) :=
  fsAux false s

/-- The `SIZE_COEFFICIENTS` lookup: `unit in SIZE_COEFFICIENTS.keys()`
followed by `SIZE_COEFFICIENTS[unit]`, over exact rationals. -/
def lookupUnit (u : List Char) : Option ℚ :=
  if u = ("KB").toList then some (1 / 1000000)
  else if u = ("MB").toList then some (1 / 1000)
  else if u = ("GB").toList then some 1
  else none

/-- The script's `calculate_size`: search every size string, keep the
successful matches, and add `int(group(1)) * coefficient` for every match
whose stripped group 2 is a recognised unit. -/
def calculate_size (packages : List Package) : ℚ :=
  let sizes := packages.map Package.size
  let size_matched := (sizes.map findSizeMatch).filterMap id
  size_matched.foldl
    (fun total m =>
      match lookupUnit (pyStrip m.2) with
      | some k => total + (m.1 : ℚ) * k
      | none => total) 0

/-- All splits of a list into a prefix and a suffix, in order. -/
def splitsList : List Char → List (List Char × List Char)
  | [] => [([], [])]
  | c :: rest => ([], c :: rest) :: (splitsList rest).map fun p => (c :: p.1, p.2)

/-- Modelled from the spec: claim C1's version segment — a numeric segment of
1 to 4 digits. -/
def claimedSegOk (t : List Char) : Bool :=
  decide (1 ≤ t.length) && decide (t.length ≤ 4) && t.all isDigitC

/-- Modelled from the spec: claim C1's conventionality predicate — the path
matches `family-version.zip` where `version` is 1 to 4 dot-separated
numeric segments of 1 to 4 digits each, and the path contains no
`.snapshot` segment. -/
def claimedConventional (path : List Char) : Bool :=
  !hasSub snapL path &&
  (splitsList path).any fun ab =>
    match ab.2 with
    | '-' :: rest =>
      (splitsList rest).any fun vr =>
        decide (vr.2 = zipL) &&
        (let segs := splitOnC '.' vr.1
         decide (1 ≤ segs.length) && decide (segs.length ≤ 4) && segs.all claimedSegOk)
    | _ => false

/-- A digit segment of length between `lo` and `hi`. -/
def DigitSeg (lo hi : Nat) (d : List Char) : Prop :=
  lo ≤ d.length ∧ d.length ≤ hi ∧ ∀ c ∈ d, isDigitC c = true

/-- The shape of version strings accepted by the script's version group
`(\d{1,3}(\.\d{1,3})?(.\d{1,4})?)`: 1–3 digits, optionally a dot and 1–3
digits, optionally any non-newline character and 1–4 digits. -/
def VersionShape (v : List Char) : Prop :=
  ∃ s1 s2 s3, v = s1 ++ s2 ++ s3 ∧ DigitSeg 1 3 s1 ∧
    (s2 = [] ∨ ∃ d, s2 = '.' :: d ∧ DigitSeg 1 3 d) ∧
    (s3 = [] ∨ ∃ c d, s3 = c :: d ∧ c ≠ '\n' ∧ DigitSeg 1 4 d)

/-- The integer value of the token at position `i`, when the position exists
and the token parses. -/
def tokInt (l : List (List Char)) (i : Nat) : Option Int :=
  match l.get? i with
  | some s => pyInt s
  | none => none

/-- Subtraction lifted to optional integers. -/
def intSub : Option Int → Option Int → Option Int
  | some x, some y => some (x - y)
  | _, _ => none

/-- Position `i` is the first difference of the token sequences `a` and `b`:
all earlier tokens parse to equal integers, both tokens at `i` parse, they
differ, and `c` is their difference. -/
def FirstDiff (a b : List (List Char)) (i : Nat) (c : Int) : Prop :=
  i < a.length ∧ i < b.length ∧
  (∀ j, j < i → tokInt a j = tokInt b j ∧ tokInt a j ≠ none) ∧
  tokInt a i ≠ none ∧ tokInt b i ≠ none ∧ tokInt a i ≠ tokInt b i ∧
  intSub (tokInt a i) (tokInt b i) = some c

/-- Two token sequences are separated: they differ at some position that both
of them have, with equal parsed prefixes before it. -/
def SepVer (a b : List (List Char)) : Prop :=
  ∃ i, i < a.length ∧ i < b.length ∧
    (∀ j, j < i → tokInt a j = tokInt b j ∧ tokInt a j ≠ none) ∧
    tokInt a i ≠ none ∧ tokInt b i ≠ none ∧ tokInt a i ≠ tokInt b i

/-- The package parses and its path is exactly the parser's reconstruction
`group(1) + '.'.join(tokens) + ".zip"`. -/
def ParsesB (p : Package) : Prop :=
  (separate_name_from_version p.path).isSome = true ∧
  p.path = parsedName p ++ joinWith '.' (parsedVer p) ++ zipL

/-- Input assumptions of the amended best-version claim: every record
parses and reconstructs, paths are pairwise distinct, and any two records
of one family are equal or have separated version sequences. -/
def GoodInput (l : List Package) : Prop :=
  (∀ p ∈ l, ParsesB p) ∧
  l.Pairwise (fun p q => p.path ≠ q.path) ∧
  (∀ p ∈ l, ∀ q ∈ l, parsedName p = parsedName q → p = q ∨ SepVer (parsedVer p) (parsedVer q))

/-- Invariant of the best-version loop after processing `seen`: the
dictionary has pairwise distinct keys, every entry is the parse of some
processed package, and the entry for each processed package's family is its
version or a strictly greater one. -/
def BestInv (seen : List Package) (d : VDict) : Prop :=
  (d.map Prod.fst).Nodup ∧
  (∀ kv ∈ d, ∃ p, p ∈ seen ∧ parsedName p = kv.1 ∧ parsedVer p = kv.2) ∧
  (∀ p ∈ seen, ∃ v, dictFind d (parsedName p) = some v ∧
    (v = parsedVer p ∨ ∃ c, compare_version v (parsedVer p) = some c ∧ 0 < c))

/-! ## Lemmas about the version comparator -/

theorem tokInt_zero (x : List Char) (xs : List (List Char)) : tokInt (x :: xs) 0 = pyInt x := rfl

theorem tokInt_succ (x : List Char) (xs : List (List Char)) (j : Nat) :
    tokInt (x :: xs) (j + 1) = tokInt xs j := rfl

/-- Shifting a first difference past an equal, parsing head pair. -/
theorem firstDiff_shift (a0 b0 : List Char) (as bs : List (List Char)) (j : Nat) (c : Int) :
    FirstDiff (a0 :: as) (b0 :: bs) (j + 1) c ↔
      (pyInt a0 = pyInt b0 ∧ pyInt a0 ≠ none ∧ FirstDiff as bs j c) := by
  constructor
  · intro h
    obtain ⟨hla, hlb, hpre, ha, hb, hne, hsub⟩ := h
    have h0 := hpre 0 (Nat.succ_pos j)
    rw [tokInt_zero, tokInt_zero] at h0
    refine ⟨h0.1, h0.2, ?_, ?_, ?_, ?_, ?_, ?_, ?_⟩
    · exact Nat.lt_of_succ_lt_succ hla
    · exact Nat.lt_of_succ_lt_succ hlb
    · intro k hk
      have := hpre (k + 1) (Nat.succ_lt_succ hk)
      rwa [tokInt_succ, tokInt_succ] at this
    · rwa [tokInt_succ] at ha
    · rwa [tokInt_succ] at hb
    · rwa [tokInt_succ, tokInt_succ] at hne
    · rwa [tokInt_succ, tokInt_succ] at hsub
  · intro h
    obtain ⟨heq, hnn, hla, hlb, hpre, ha, hb, hne, hsub⟩ := h
    refine ⟨Nat.succ_lt_succ hla, Nat.succ_lt_succ hlb, ?_, ?_, ?_, ?_, ?_⟩
    · intro k hk
      match k with
      | 0 => exact ⟨heq, hnn⟩
      | m + 1 =>
        rw [tokInt_succ, tokInt_succ]
        exact hpre m (Nat.lt_of_succ_lt_succ hk)
    · rwa [tokInt_succ]
    · rwa [tokInt_succ]
    · rwa [tokInt_succ, tokInt_succ]
    · rwa [tokInt_succ, tokInt_succ]

/-- A first difference forces the comparator to return exactly its value. -/
theorem cmp_of_firstDiff : ∀ (a b : List (List Char)) (i : Nat) (c : Int),
    FirstDiff a b i c → compare_version a b = some c := by
  intro a
  induction a with
  | nil =>
    intro b i c h
    exact absurd h.1 (by simp)
  | cons a0 as ih =>
    intro b i c h
    match b with
    | [] => exact absurd h.2.1 (by simp)
    | b0 :: bs =>
      match i with
      | 0 =>
        obtain ⟨_, _, _, ha, hb, hne, hsub⟩ := h
        rw [tokInt_zero] at ha hb
        simp only [tokInt_zero] at hne hsub
        match hx : pyInt a0 with
        | none => exact absurd hx ha
        | some x =>
          match hy : pyInt b0 with
          | none => exact absurd hy hb
          | some y =>
            rw [hx, hy] at hne hsub
            simp only [intSub] at hsub
            have hxy : x ≠ y := by
              intro he
              rw [he] at hne
              exact hne rfl
            simp only [compare_version, hx, hy]
            rw [if_neg (by omega)]
            exact hsub
      | j + 1 =>
        rw [firstDiff_shift] at h
        obtain ⟨heq, hnn, hfd⟩ := h
        match hx : pyInt a0 with
        | none => exact absurd hx hnn
        | some x =>
          have hy : pyInt b0 = some x := by rw [← heq, hx]
          simp only [compare_version, hx, hy]
          rw [if_pos (by omega)]
          exact ih bs j c hfd

/-- The comparator fails (IndexError or ValueError) exactly when the two
sequences have no first difference. -/
theorem cmp_none_iff : ∀ (a b : List (List Char)),
    compare_version a b = none ↔ ∀ i c, ¬ FirstDiff a b i c := by
  intro a
  induction a with
  | nil =>
    intro b
    constructor
    · intro _ i c h
      exact absurd h.1 (by simp)
    · intro _
      rfl
  | cons a0 as ih =>
    intro b
    match b with
    | [] =>
      constructor
      · intro _ i c h
        exact absurd h.2.1 (by simp)
      · intro _
        rfl
    | b0 :: bs =>
      match hx : pyInt a0 with
      | none =>
        constructor
        · intro _ i c h
          match i with
          | 0 =>
            have := h.2.2.2.1
            rw [tokInt_zero, hx] at this
            exact this rfl
          | j + 1 =>
            have := (h.2.2.1 0 (Nat.succ_pos j)).2
            rw [tokInt_zero, hx] at this
            exact this rfl
        · intro _
          simp only [compare_version, hx]
      | some x =>
        match hy : pyInt b0 with
        | none =>
          constructor
          · intro _ i c h
            match i with
            | 0 =>
              have := h.2.2.2.2.1
              rw [tokInt_zero, hy] at this
              exact this rfl
            | j + 1 =>
              have h0 := h.2.2.1 0 (Nat.succ_pos j)
              have := h0.2
              rw [h0.1, tokInt_zero, hy] at this
              exact this rfl
          · intro _
            simp only [compare_version, hx, hy]
        | some y =>
          by_cases hxy : x - y = 0
          · have hxyeq : x = y := by omega
            have hstep : compare_version (a0 :: as) (b0 :: bs) = compare_version as bs := by
              simp only [compare_version, hx, hy]
              rw [if_pos hxy]
            rw [hstep, ih bs]
            constructor
            · intro h i c hfd
              match i with
              | 0 =>
                have := hfd.2.2.2.2.2.1
                rw [tokInt_zero, tokInt_zero, hx, hy, hxyeq] at this
                exact this rfl
              | j + 1 =>
                rw [firstDiff_shift] at hfd
                exact h j c hfd.2.2
            · intro h j c hfd
              have : FirstDiff (a0 :: as) (b0 :: bs) (j + 1) c := by
                rw [firstDiff_shift]
                refine ⟨by rw [hx, hy, hxyeq], by rw [hx]; exact Option.some_ne_none x, hfd⟩
              exact h (j + 1) c this
          · constructor
            · intro h
              have : compare_version (a0 :: as) (b0 :: bs) = some (x - y) := by
                simp only [compare_version, hx, hy]
                rw [if_neg hxy]
              rw [this] at h
              exact absurd h (by simp)
            · intro h
              exfalso
              refine h 0 (x - y) ⟨Nat.succ_pos _, Nat.succ_pos _, ?_, ?_, ?_, ?_, ?_⟩
              · intro j hj
                exact absurd hj (Nat.not_lt_zero j)
              · rw [tokInt_zero, hx]
                exact Option.some_ne_none x
              · rw [tokInt_zero, hy]
                exact Option.some_ne_none y
              · rw [tokInt_zero, tokInt_zero, hx, hy]
                intro he
                have : x = y := Option.some.inj he
                omega
              · rw [tokInt_zero, tokInt_zero, hx, hy]
                rfl

/-- The comparator is antisymmetric on its successes. -/
theorem cmp_antisym : ∀ (a b : List (List Char)) (c : Int),
    compare_version a b = some c → compare_version b a = some (-c) := by
  intro a
  induction a with
  | nil =>
    intro b c h
    exact absurd h (by simp [compare_version])
  | cons a0 as ih =>
    intro b c h
    match b with
    | [] => exact absurd h (by simp [compare_version])
    | b0 :: bs =>
      cases hx : pyInt a0 with
      | none => simp [compare_version, hx] at h
      | some x =>
        cases hy : pyInt b0 with
        | none => simp [compare_version, hx, hy] at h
        | some y =>
          simp only [compare_version, hx, hy] at h ⊢
          by_cases hxy : x - y = 0
          · rw [if_pos hxy] at h
            rw [if_pos (by omega : y - x = 0)]
            exact ih bs c h
          · rw [if_neg hxy] at h
            have hc : c = x - y := (Option.some.inj h).symm
            rw [if_neg (by omega : ¬ y - x = 0)]
            have : y - x = -c := by omega
            rw [this]

/-- Sign transitivity of the comparator on successes. -/
theorem cmp_trans_pos : ∀ (a b d : List (List Char)) (c e f : Int),
    compare_version a b = some c → 0 < c → compare_version b d = some e → 0 < e →
    compare_version a d = some f → 0 < f := by
  intro a
  induction a with
  | nil =>
    intro b d c e f h
    exact absurd h (by simp [compare_version])
  | cons a0 as ih =>
    intro b d c e f hab hc hbd he had
    match b with
    | [] => exact absurd hab (by simp [compare_version])
    | b0 :: bs =>
      match d with
      | [] => exact absurd hbd (by simp [compare_version])
      | d0 :: ds =>
        cases hx : pyInt a0 with
        | none => simp [compare_version, hx] at hab
        | some x =>
          cases hy : pyInt b0 with
          | none => simp [compare_version, hx, hy] at hab
          | some y =>
            cases hz : pyInt d0 with
            | none => simp [compare_version, hy, hz] at hbd
            | some z =>
              simp only [compare_version, hx, hy, hz] at hab hbd had
              by_cases hxy : x - y = 0
              · rw [if_pos hxy] at hab
                by_cases hyz : y - z = 0
                · rw [if_pos hyz] at hbd
                  rw [if_pos (by omega : x - z = 0)] at had
                  exact ih bs ds c e f hab hc hbd he had
                · rw [if_neg hyz] at hbd
                  have he' : e = y - z := (Option.some.inj hbd).symm
                  rw [if_neg (by omega : ¬ x - z = 0)] at had
                  have : f = x - z := (Option.some.inj had).symm
                  omega
              · rw [if_neg hxy] at hab
                have hc' : c = x - y := (Option.some.inj hab).symm
                by_cases hyz : y - z = 0
                · rw [if_pos hyz] at hbd
                  rw [if_neg (by omega : ¬ x - z = 0)] at had
                  have : f = x - z := (Option.some.inj had).symm
                  omega
                · rw [if_neg hyz] at hbd
                  have he' : e = y - z := (Option.some.inj hbd).symm
                  rw [if_neg (by omega : ¬ x - z = 0)] at had
                  have : f = x - z := (Option.some.inj had).symm
                  omega

/-- Separated sequences always compare successfully and strictly. -/
theorem sepVer_cmp (a b : List (List Char)) (h : SepVer a b) :
    ∃ c, compare_version a b = some c ∧ c ≠ 0 := by
  obtain ⟨i, hla, hlb, hpre, ha, hb, hne⟩ := h
  match hx : tokInt a i with
  | none => exact absurd hx ha
  | some x =>
    match hy : tokInt b i with
    | none => exact absurd hy hb
    | some y =>
      refine ⟨x - y, ?_, ?_⟩
      · apply cmp_of_firstDiff a b i
        exact ⟨hla, hlb, hpre, ha, hb, hne, by rw [hx, hy]; rfl⟩
      · rw [hx, hy] at hne
        intro hzero
        have : x = y := by omega
        rw [this] at hne
        exact hne rfl

/-- Separation is symmetric. -/
theorem sepVer_symm (a b : List (List Char)) (h : SepVer a b) : SepVer b a := by
  obtain ⟨i, hla, hlb, hpre, ha, hb, hne⟩ := h
  refine ⟨i, hlb, hla, ?_, hb, ha, ?_⟩
  · intro j hj
    obtain ⟨h1, h2⟩ := hpre j hj
    exact ⟨h1.symm, by rwa [← h1]⟩
  · intro he
    exact hne he.symm

/-! ## Claim theorems: comparator, snapshot filter, size, correlator crash -/

/-- C2 (amended): compare_version returns a value exactly when the two token
sequences have a first differing position that both sequences possess, with
all earlier tokens parsing to equal integers; the returned value is the
integer difference at that position.  When the sequences agree at every
shared position — identical sequences, or a sequence that is a parsed
prefix of a longer one — the recursion runs off the end of a list and
raises IndexError (modelled by `none`) instead of answering "equal". -/
theorem c2_compare_version_first_difference (a b : List (List Char)) :
    (∀ i c, FirstDiff a b i c → compare_version a b = some c) ∧
    (compare_version a b = none ↔ ∀ i c, ¬ FirstDiff a b i c) :=
  ⟨cmp_of_firstDiff a b, cmp_none_iff a b⟩

/-- Witness for C2: on ["2"] versus ["1"] the first difference is at position
0 with difference 1, and the comparator indeed returns it. -/
theorem c2_witness : compare_version [("2").toList] [("1").toList] = some 1 :=
  (c2_compare_version_first_difference [("2").toList] [("1").toList]).1 0 1
    ⟨by decide, by decide, fun j hj => absurd hj (Nat.not_lt_zero j),
     by decide, by decide, by decide, by decide⟩

/-- C2 counterexample: on the identical singleton sequences ["1"] and ["1"]
the comparator does not terminate with a "greater"/"equal"/"less" result;
it recurses onto two empty lists and raises IndexError at `a[0]`. -/
theorem c2_counterexample : compare_version [("1").toList] [("1").toList] = none := by decide

/-- C4: on the token sequences parsed from "1.10" and "1.9" the comparator
returns a strictly positive result, i.e. 1.10 is numerically greater than
1.9 per segment rather than lexicographically smaller. -/
theorem c4_numeric_not_lexicographic :
    ∃ c, compare_version (splitOnC '.' (("1.10").toList)) (splitOnC '.' (("1.9").toList)) =
      some c ∧ 0 < c :=
  ⟨1, by decide, by decide⟩

/-- C10: a package whose path contains ".snapshot" anywhere as a substring —
even when it is not a standalone path segment — is never conventional, so
it never enters the conventional filter's output (the input of family
grouping and of the outdated-set derivation). -/
theorem c10_snapshot_substring_never_conventional (p : Package)
    (h : hasSub snapL p.path = true) :
    is_conventional p = false ∧ ∀ l : List Package, p ∉ l.filter is_conventional := by
  constructor
  · simp [is_conventional, h]
  · intro l hmem
    have hc := (List.mem_filter.mp hmem).2
    simp [is_conventional, h] at hc

/-- Witness for C10 at the path "libs/my.snapshots-tool-1.0.zip", where
".snapshot" occurs only inside the word "snapshots". -/
theorem c10_witness :
    hasSub snapL (("libs/my.snapshots-tool-1.0.zip").toList) = true ∧
    is_conventional ⟨("libs/my.snapshots-tool-1.0.zip").toList, ("1 MB").toList⟩ = false :=
  ⟨by decide, (c10_snapshot_substring_never_conventional
    ⟨("libs/my.snapshots-tool-1.0.zip").toList, ("1 MB").toList⟩ (by decide)).1⟩

/-- C5 (code bug): on an outdated record whose path has no "/" separator the
filename regex of get_package_name_from_path does not match, the script
calls `.groups()` on `None` and find_outdated_snapshots dies with
AttributeError (modelled by `none`) instead of skipping the record as the
dead `name is not None` guard intends. -/
theorem c5_crash_on_undecomposable_path :
    find_outdated_snapshots
      [⟨("/etc/a-1.0/.snapshot/a-1.0.zip").toList, ("1 MB").toList⟩]
      [⟨("pkg.zip").toList, ("1 MB").toList⟩] = none := by decide

/-- C3 counterexample: "a-1.0.zip" and "a-1.0.5.zip" are two conventional
records of one family with distinct paths, yet determine_best_packages
returns nothing at all: comparing ["1","0"] with ["1","0","5"] recurses
past the shorter sequence and raises IndexError. -/
theorem c3_counterexample :
    is_conventional ⟨("a-1.0.zip").toList, ("1 MB").toList⟩ = true ∧
    is_conventional ⟨("a-1.0.5.zip").toList, ("1 MB").toList⟩ = true ∧
    parsedName ⟨("a-1.0.zip").toList, ("1 MB").toList⟩ =
      parsedName ⟨("a-1.0.5.zip").toList, ("1 MB").toList⟩ ∧
    determine_best_packages
      [⟨("a-1.0.zip").toList, ("1 MB").toList⟩,
       ⟨("a-1.0.5.zip").toList, ("1 MB").toList⟩] = none := by decide

/-- C1 counterexample: "pkg-1.2.3.4.zip" has four dot-separated numeric
segments of one digit each and no ".snapshot", so the claimed predicate
accepts it, but the script's regex allows at most three segments and
rejects it. -/
theorem c1_counterexample :
    claimedConventional (("pkg-1.2.3.4.zip").toList) = true ∧
    is_conventional ⟨("pkg-1.2.3.4.zip").toList, ("1 MB").toList⟩ = false := by decide

/-! ## Size accounting -/

/-- The size fold accumulates the sum of the per-match contributions. -/
theorem csize_fold (ms : List (Nat × List Char)) (t : ℚ) :
    ms.foldl
      (fun total m =>
        match lookupUnit (pyStrip m.2) with
        | some k => total + (m.1 : ℚ) * k
        | none => total) t
    = t + (ms.map fun m =>
        match lookupUnit (pyStrip m.2) with
        | some k => (m.1 : ℚ) * k
        | none => (0 : ℚ)).sum := by
  induction ms generalizing t with
  | nil => simp
  | cons m rest ih =>
    simp only [List.foldl_cons, List.map_cons, List.sum_cons]
    cases h : lookupUnit (pyStrip m.2) with
    | none => simp only [h]; rw [ih]; ring
    | some k => simp only [h]; rw [ih]; ring

/-- Dropping the failed matches before mapping is the same as mapping the
failures to zero. -/
theorem sum_over_filterMap (os : List (Option (Nat × List Char)))
    (g : Nat × List Char → ℚ) :
    ((os.filterMap id).map g).sum
      = (os.map fun o => match o with
          | none => (0 : ℚ)
          | some m => g m).sum := by
  induction os with
  | nil => simp
  | cons o rest ih =>
    cases o with
    | none => simpa [List.filterMap_cons] using ih
    | some m => simpa [List.filterMap_cons] using ih

/-- The dictionary lookup of a unit agrees with the explicit decision chain
over the three recognised units. -/
theorem lookupUnit_contrib (n : Nat) (u : List Char) :
    (match lookupUnit u with
     | some k => (n : ℚ) * k
     | none => (0 : ℚ))
    = (if u = ("KB").toList then (n : ℚ) * (1 / 1000000)
       else if u = ("MB").toList then (n : ℚ) * (1 / 1000)
       else if u = ("GB").toList then (n : ℚ) * 1
       else 0) := by
  unfold lookupUnit
  by_cases h1 : u = ("KB").toList
  · rw [if_pos h1, if_pos h1]
  · rw [if_neg h1, if_neg h1]
    by_cases h2 : u = ("MB").toList
    · rw [if_pos h2, if_pos h2]
    · rw [if_neg h2, if_neg h2]
      by_cases h3 : u = ("GB").toList
      · rw [if_pos h3, if_pos h3]
      · rw [if_neg h3, if_neg h3]

/-- calculate_size is the sum of the per-record contributions. -/
theorem calculate_size_sum (packages : List Package) :
    calculate_size packages
      = (packages.map fun p =>
          match findSizeMatch p.size with
          | none => (0 : ℚ)
          | some m =>
            if pyStrip m.2 = ("KB").toList then (m.1 : ℚ) * (1 / 1000000)
            else if pyStrip m.2 = ("MB").toList then (m.1 : ℚ) * (1 / 1000)
            else if pyStrip m.2 = ("GB").toList then (m.1 : ℚ) * 1
            else 0).sum := by
  simp only [calculate_size]
  rw [csize_fold, zero_add, sum_over_filterMap, List.map_map, List.map_map]
  congr 1
  congr 1
  funext p
  simp only [Function.comp]
  cases hm : findSizeMatch p.size with
  | none => rfl
  | some m => exact lookupUnit_contrib m.1 (pyStrip m.2)

/-- C6: calculate_size sums, over all records, the contribution of the size
match `(\d+)(\s\w{2})`: the matched integer weighted by 1e-6 for KB, 1e-3
for MB and 1 for GB; records with an unrecognised unit or no match at all
contribute 0 without raising.  In particular, on sizes "500 MB", "2 GB"
and "bogus" it returns 0.5 + 2 + 0 = 2.5 GB. -/
theorem c6_size_accounting :
    (∀ packages : List Package,
      calculate_size packages
        = (packages.map fun p =>
            match findSizeMatch p.size with
            | none => (0 : ℚ)
            | some m =>
              if pyStrip m.2 = ("KB").toList then (m.1 : ℚ) * (1 / 1000000)
              else if pyStrip m.2 = ("MB").toList then (m.1 : ℚ) * (1 / 1000)
              else if pyStrip m.2 = ("GB").toList then (m.1 : ℚ) * 1
              else 0).sum) ∧
    calculate_size
      [⟨("p1").toList, ("500 MB").toList⟩,
       ⟨("p2").toList, ("2 GB").toList⟩,
       ⟨("p3").toList, ("bogus").toList⟩] = 5 / 2 := by
  refine ⟨calculate_size_sum, ?_⟩
  rw [calculate_size_sum]
  have e1 : findSizeMatch (("500 MB").toList) = some (500, [' ', 'M', 'B']) := by decide
  have e2 : findSizeMatch (("2 GB").toList) = some (2, [' ', 'G', 'B']) := by decide
  have e3 : findSizeMatch (("bogus").toList) = none := by decide
  have p1 : pyStrip [' ', 'M', 'B'] = ("MB").toList := by decide
  have p2 : pyStrip [' ', 'G', 'B'] = ("GB").toList := by decide
  simp only [List.map_cons, List.map_nil, e1, e2, e3, p1, p2, List.sum_cons, List.sum_nil]
  rw [if_neg (by decide), if_pos (by decide), if_neg (by decide), if_neg (by decide),
    if_pos (by decide)]
  norm_num

/-! ## List lemmas for the regex matchers -/

theorem tw_take_drop (q : Char → Bool) :
    ∀ s : List Char, s.take ((s.takeWhile q).length) = s.takeWhile q ∧
      s.drop ((s.takeWhile q).length) = s.dropWhile q := by
  intro s
  induction s with
  | nil => exact ⟨rfl, rfl⟩
  | cons c rest ih =>
    cases hq : q c with
    | true =>
      simp only [List.takeWhile_cons, List.dropWhile_cons, hq, if_true, List.length_cons,
        List.take_succ_cons, List.drop_succ_cons]
      exact ⟨by rw [ih.1], ih.2⟩
    | false =>
      simp only [List.takeWhile_cons, List.dropWhile_cons, hq, if_false, List.length_nil,
        List.take_zero, List.drop_zero]
      exact ⟨rfl, rfl⟩

theorem tw_len_le (q : Char → Bool) : ∀ s : List Char, (s.takeWhile q).length ≤ s.length := by
  intro s
  induction s with
  | nil => exact Nat.le_refl _
  | cons c rest ih =>
    cases hq : q c with
    | true =>
      simp only [List.takeWhile_cons, hq, if_true, List.length_cons]
      exact Nat.succ_le_succ ih
    | false =>
      simp only [List.takeWhile_cons, hq, if_false, List.length_nil]
      exact Nat.zero_le _

/-- Every element of an initial segment inside the takeWhile prefix satisfies
the predicate. -/
theorem tw_take_all (q : Char → Bool) :
    ∀ (s : List Char) (k : Nat), k ≤ (s.takeWhile q).length →
      ∀ c ∈ s.take k, q c = true := by
  intro s
  induction s with
  | nil =>
    intro k _ c hc
    simp at hc
  | cons a rest ih =>
    intro k hk c hc
    cases hq : q a with
    | false =>
      rw [List.takeWhile_cons, hq] at hk
      simp at hk
      subst hk
      simp at hc
    | true =>
      match k with
      | 0 => simp at hc
      | k' + 1 =>
        rw [List.takeWhile_cons, hq] at hk
        simp only [if_true, List.length_cons] at hk
        rw [List.take_succ_cons] at hc
        rcases List.mem_cons.mp hc with h | h
        · rw [h]; exact hq
        · exact ih k' (Nat.le_of_succ_le_succ hk) c h

/-- An all-satisfying prefix is no longer than the takeWhile prefix. -/
theorem tw_len_ge (q : Char → Bool) :
    ∀ (d r : List Char), (∀ c ∈ d, q c = true) →
      d.length ≤ ((d ++ r).takeWhile q).length := by
  intro d
  induction d with
  | nil =>
    intro r _
    exact Nat.zero_le _
  | cons a d' ih =>
    intro r hd
    have ha : q a = true := hd a (List.mem_cons_self a d')
    rw [List.cons_append, List.takeWhile_cons, ha]
    simp only [if_true, List.length_cons]
    exact Nat.succ_le_succ (ih r fun c hc => hd c (List.mem_cons_of_mem a hc))

/-- takeWhile and dropWhile of a satisfying block followed by a failing
character. -/
theorem tw_append_stop (q : Char → Bool) :
    ∀ (d : List Char) (h : Char) (t : List Char), (∀ c ∈ d, q c = true) → q h = false →
      (d ++ h :: t).takeWhile q = d ∧ (d ++ h :: t).dropWhile q = h :: t := by
  intro d
  induction d with
  | nil =>
    intro h t _ hh
    simp only [List.nil_append, List.takeWhile_cons, List.dropWhile_cons, hh]
    exact ⟨rfl, rfl⟩
  | cons a d' ih =>
    intro h t hd hh
    have ha : q a = true := hd a (List.mem_cons_self a d')
    rw [List.cons_append, List.takeWhile_cons, List.dropWhile_cons, ha]
    simp only [if_true]
    have := ih h t (fun c hc => hd c (List.mem_cons_of_mem a hc)) hh
    exact ⟨by rw [this.1], this.2⟩


/-- Membership in `digitsTake` is exactly: a nonempty all-digit prefix of
length at most the bound, with the corresponding remainder. -/
theorem digitsTake_mem (s : List Char) (m : Nat) (g r : List Char) :
    (g, r) ∈ digitsTake s m ↔ (s = g ++ r ∧ DigitSeg 1 m g) := by
  simp only [digitsTake, List.mem_map, List.mem_range]
  constructor
  · rintro ⟨j, hj, hp⟩
    rw [Prod.mk.injEq] at hp
    obtain ⟨hg, hr⟩ := hp
    set run := min m (s.takeWhile isDigitC).length with hrun
    have hk1 : 1 ≤ run - j := by omega
    have hk2 : run - j ≤ m := by omega
    have hk3 : run - j ≤ (s.takeWhile isDigitC).length := by omega
    have hksl : run - j ≤ s.length := Nat.le_trans hk3 (tw_len_le isDigitC s)
    constructor
    · rw [← hg, ← hr, List.take_append_drop]
    · refine ⟨?_, ?_, ?_⟩
      · rw [← hg, List.length_take]
        omega
      · rw [← hg, List.length_take]
        omega
      · intro c hc
        rw [← hg] at hc
        exact tw_take_all isDigitC s (run - j) hk3 c hc
  · rintro ⟨hs, hlo, hhi, hdig⟩
    set run := min m (s.takeWhile isDigitC).length with hrun
    have hgle : g.length ≤ (s.takeWhile isDigitC).length := by
      rw [hs]
      exact tw_len_ge isDigitC g r hdig
    have hrg : g.length ≤ run := by omega
    refine ⟨run - g.length, by omega, ?_⟩
    have hcancel : run - (run - g.length) = g.length := by omega
    rw [Prod.mk.injEq, hcancel, hs, List.take_left, List.drop_left]
    exact ⟨rfl, rfl⟩

/-- Membership in `optDot`: either the group is absent, or it is a dot
followed by 1 to `m` digits. -/
theorem optDot_mem (s : List Char) (m : Nat) (g r : List Char) :
    (g, r) ∈ optDot s m ↔
      (s = g ++ r ∧ (g = [] ∨ ∃ d, g = '.' :: d ∧ DigitSeg 1 m d)) := by
  match s with
  | [] =>
    simp only [optDot, List.mem_singleton, Prod.mk.injEq]
    constructor
    · rintro ⟨hg, hr⟩
      subst hg
      subst hr
      exact ⟨rfl, Or.inl rfl⟩
    · rintro ⟨hs, hg | ⟨d, hg, _⟩⟩
      · subst hg
        rw [List.nil_append] at hs
        exact ⟨rfl, hs.symm⟩
      · subst hg
        rw [List.cons_append] at hs
        exact absurd hs (by simp)
  | c :: rr =>
    by_cases hc : c = '.'
    · subst hc
      have hopt : optDot ('.' :: rr) m
          = ((digitsTake rr m).map fun p => ('.' :: p.1, p.2)) ++ [([], '.' :: rr)] := by
        simp [optDot]
      rw [hopt]
      simp only [List.mem_append, List.mem_map, List.mem_singleton]
      constructor
      · rintro (⟨⟨pd, pr⟩, hp, he⟩ | he)
        · rw [Prod.mk.injEq] at he
          obtain ⟨hg, hr⟩ := he
          have hdt := (digitsTake_mem rr m pd pr).mp hp
          subst hg
          subst hr
          exact ⟨by rw [List.cons_append, ← hdt.1], Or.inr ⟨pd, rfl, hdt.2⟩⟩
        · rw [Prod.mk.injEq] at he
          obtain ⟨hg, hr⟩ := he
          subst hg
          subst hr
          exact ⟨rfl, Or.inl rfl⟩
      · rintro ⟨hs, hgroup⟩
        rcases hgroup with hg | hg
        · right
          subst hg
          rw [List.nil_append] at hs
          rw [Prod.mk.injEq]
          exact ⟨rfl, hs.symm⟩
        · left
          obtain ⟨d, hg, hseg⟩ := hg
          subst hg
          rw [List.cons_append] at hs
          have hrr : rr = d ++ r := by
            injection hs with _ h2
          refine ⟨(d, r), (digitsTake_mem rr m d r).mpr ⟨hrr, hseg⟩, rfl⟩
    · have hopt : optDot (c :: rr) m = [([], c :: rr)] := by
        simp [optDot, hc]
      rw [hopt]
      simp only [List.mem_singleton, Prod.mk.injEq]
      constructor
      · rintro ⟨hg, hr⟩
        subst hg
        subst hr
        exact ⟨rfl, Or.inl rfl⟩
      · rintro ⟨hs, hgroup⟩
        rcases hgroup with hg | hg
        · subst hg
          rw [List.nil_append] at hs
          exact ⟨rfl, hs.symm⟩
        · obtain ⟨d, hg, _⟩ := hg
          subst hg
          rw [List.cons_append] at hs
          injection hs with h1 _
          exact absurd h1 hc

/-- Membership in `optAny`: either the group is absent, or it is any
non-newline character followed by 1 to `m` digits. -/
theorem optAny_mem (s : List Char) (m : Nat) (g r : List Char) :
    (g, r) ∈ optAny s m ↔
      (s = g ++ r ∧ (g = [] ∨ ∃ c d, g = c :: d ∧ c ≠ '\n' ∧ DigitSeg 1 m d)) := by
  match s with
  | [] =>
    simp only [optAny, List.mem_singleton, Prod.mk.injEq]
    constructor
    · rintro ⟨hg, hr⟩
      subst hg
      subst hr
      exact ⟨rfl, Or.inl rfl⟩
    · rintro ⟨hs, hgroup⟩
      rcases hgroup with hg | hg
      · subst hg
        rw [List.nil_append] at hs
        exact ⟨rfl, hs.symm⟩
      · obtain ⟨x, d, hg, _, _⟩ := hg
        subst hg
        rw [List.cons_append] at hs
        exact absurd hs (by simp)
  | c :: rr =>
    by_cases hc : c = '\n'
    · subst hc
      have hopt : optAny ('\n' :: rr) m = [([], '\n' :: rr)] := by
        simp [optAny]
      rw [hopt]
      simp only [List.mem_singleton, Prod.mk.injEq]
      constructor
      · rintro ⟨hg, hr⟩
        subst hg
        subst hr
        exact ⟨rfl, Or.inl rfl⟩
      · rintro ⟨hs, hgroup⟩
        rcases hgroup with hg | hg
        · subst hg
          rw [List.nil_append] at hs
          exact ⟨rfl, hs.symm⟩
        · obtain ⟨x, d, hg, hx, _⟩ := hg
          subst hg
          rw [List.cons_append] at hs
          injection hs with h1 _
          exact absurd h1.symm hx
    · have hopt : optAny (c :: rr) m
          = ((digitsTake rr m).map fun p => (c :: p.1, p.2)) ++ [([], c :: rr)] := by
        simp [optAny, hc]
      rw [hopt]
      simp only [List.mem_append, List.mem_map, List.mem_singleton]
      constructor
      · rintro (⟨⟨pd, pr⟩, hp, he⟩ | he)
        · rw [Prod.mk.injEq] at he
          obtain ⟨hg, hr⟩ := he
          have hdt := (digitsTake_mem rr m pd pr).mp hp
          subst hg
          subst hr
          exact ⟨by rw [List.cons_append, ← hdt.1], Or.inr ⟨c, pd, rfl, hc, hdt.2⟩⟩
        · rw [Prod.mk.injEq] at he
          obtain ⟨hg, hr⟩ := he
          subst hg
          subst hr
          exact ⟨rfl, Or.inl rfl⟩
      · rintro ⟨hs, hgroup⟩
        rcases hgroup with hg | hg
        · right
          subst hg
          rw [List.nil_append] at hs
          rw [Prod.mk.injEq]
          exact ⟨rfl, hs.symm⟩
        · left
          obtain ⟨x, d, hg, hx, hseg⟩ := hg
          subst hg
          rw [List.cons_append] at hs
          injection hs with h1 h2
          subst h1
          refine ⟨(d, r), (digitsTake_mem rr m d r).mpr ⟨h2, hseg⟩, rfl⟩

/-- Membership in the version candidate list is exactly a decomposition into
a version of the accepted shape plus the remainder. -/
theorem vc_mem (s : List Char) (v r : List Char) :
    (v, r) ∈ versionCandidates s ↔ (s = v ++ r ∧ VersionShape v) := by
  simp only [versionCandidates, List.mem_flatMap, List.mem_map]
  constructor
  · rintro ⟨⟨g1, r1⟩, h1, ⟨g2, r2⟩, h2, ⟨g3, r3⟩, h3, he⟩
    rw [Prod.mk.injEq] at he
    obtain ⟨hv, hr⟩ := he
    have d1 := (digitsTake_mem s 3 g1 r1).mp h1
    have d2 := (optDot_mem r1 3 g2 r2).mp h2
    have d3 := (optAny_mem r2 4 g3 r3).mp h3
    subst hv
    subst hr
    constructor
    · rw [d1.1, d2.1, d3.1]
      simp [List.append_assoc]
    · exact ⟨g1, g2, g3, rfl, d1.2, d2.2, d3.2⟩
  · rintro ⟨hs, s1, s2, s3, hv, hs1, hs2, hs3⟩
    refine ⟨(s1, s2 ++ (s3 ++ r)), ?_, ⟨(s2, s3 ++ r), ?_, ⟨(s3, r), ?_, ?_⟩⟩⟩
    · refine (digitsTake_mem s 3 s1 _).mpr ⟨?_, hs1⟩
      rw [hs, hv]
      simp [List.append_assoc]
    · exact (optDot_mem _ 3 s2 _).mpr ⟨rfl, hs2⟩
    · exact (optAny_mem _ 4 s3 r).mpr ⟨rfl, hs3⟩
    · rw [Prod.mk.injEq]
      exact ⟨by rw [hv, List.append_assoc], rfl⟩

/-- The anchored suffix matcher succeeds exactly on a shaped version followed
by ".zip", possibly with one trailing newline. -/
theorem convEnd_iff (s : List Char) :
    convEnd s = true ↔
      ∃ v, VersionShape v ∧ (s = v ++ zipL ∨ s = v ++ (zipL ++ ['\n'])) := by
  simp only [convEnd, List.any_eq_true]
  constructor
  · rintro ⟨⟨v, r⟩, hm, hcond⟩
    have hvm := (vc_mem s v r).mp hm
    simp only [Bool.or_eq_true, decide_eq_true_eq] at hcond
    refine ⟨v, hvm.2, ?_⟩
    rcases hcond with h | h
    · left
      rw [hvm.1, h]
    · right
      rw [hvm.1, h]
  · rintro ⟨v, hshape, h | h⟩
    · refine ⟨(v, zipL), (vc_mem s v zipL).mpr ⟨h, hshape⟩, ?_⟩
      simp
    · refine ⟨(v, zipL ++ ['\n']), (vc_mem s v _).mpr ⟨h, hshape⟩, ?_⟩
      simp

/-- The anchored full-path matcher succeeds exactly when the path splits at a
dash with a newline-free part before it and an accepted version suffix
after it. -/
theorem convScan_iff : ∀ s : List Char,
    convScan s = true ↔
      ∃ a b, s = a ++ '-' :: b ∧ (∀ c ∈ a, c ≠ '\n') ∧ convEnd b = true := by
  intro s
  induction s with
  | nil =>
    constructor
    · intro h
      exact absurd h (by simp [convScan])
    · rintro ⟨a, b, hs, _, _⟩
      exact absurd hs (by simp)
  | cons c rest ih =>
    by_cases hc : c = '\n'
    · subst hc
      simp only [convScan, if_pos rfl]
      constructor
      · intro h
        exact absurd h (by simp)
      · rintro ⟨a, b, hs, hnl, _⟩
        match a, hs with
        | [], hs =>
          injection hs with h1 _
          exact absurd h1 (by decide)
        | x :: a', hs =>
          injection hs with h1 _
          exact absurd h1.symm (hnl x (List.mem_cons_self x a'))
    · simp only [convScan, if_neg hc]
      constructor
      · intro h
        rcases (Bool.or_eq_true _ _).mp h with h | h
        · obtain ⟨hdash, hend⟩ := (Bool.and_eq_true _ _).mp h
          have hcd : c = '-' := of_decide_eq_true hdash
          refine ⟨[], rest, by rw [hcd, List.nil_append], ?_, hend⟩
          intro x hx
          exact absurd hx (List.not_mem_nil x)
        · obtain ⟨a, b, hs, hnl, hend⟩ := ih.mp h
          refine ⟨c :: a, b, by rw [hs, List.cons_append], ?_, hend⟩
          intro x hx
          rcases List.mem_cons.mp hx with h1 | h1
          · rw [h1]
            exact hc
          · exact hnl x h1
      · rintro ⟨a, b, hs, hnl, hend⟩
        apply (Bool.or_eq_true _ _).mpr
        match a, hs with
        | [], hs =>
          left
          rw [List.nil_append] at hs
          injection hs with h1 h2
          apply (Bool.and_eq_true _ _).mpr
          refine ⟨decide_eq_true h1, ?_⟩
          rw [h2]
          exact hend
        | x :: a', hs =>
          right
          rw [List.cons_append] at hs
          injection hs with h1 h2
          refine ih.mpr ⟨a', b, h2, ?_, hend⟩
          intro y hy
          exact hnl y (List.mem_cons_of_mem x hy)

/-- C1 (amended): for newline-free paths, is_conventional accepts exactly the
paths with no ".snapshot" substring that decompose as
`family ++ "-" ++ version ++ ".zip"`, where the version is one numeric
segment of 1–3 digits, optionally followed by a dot and a numeric segment
of 1–3 digits, optionally followed by one arbitrary (non-newline) character
and a numeric segment of 1–4 digits — at most three segments, with digit
widths 3/3/4 and an arbitrary character as the last separator, not the
claimed 1–4 dot-separated segments of 1–4 digits. -/
theorem c1_conventional_pattern (p : Package) (hnl : ∀ c ∈ p.path, c ≠ '\n') :
    is_conventional p = true ↔
      (hasSub snapL p.path = false ∧
       ∃ fam v, p.path = fam ++ '-' :: (v ++ zipL) ∧ VersionShape v) := by
  rw [is_conventional, Bool.and_eq_true, Bool.not_eq_true']
  constructor
  · rintro ⟨hsnap, hscan⟩
    obtain ⟨a, b, hs, _, hend⟩ := (convScan_iff _).mp hscan
    obtain ⟨v, hshape, hb | hb⟩ := (convEnd_iff b).mp hend
    · exact ⟨hsnap, a, v, by rw [hs, hb], hshape⟩
    · exfalso
      refine hnl '\n' ?_ rfl
      rw [hs, hb]
      refine List.mem_append_right a ?_
      refine List.mem_cons_of_mem '-' ?_
      refine List.mem_append_right v ?_
      refine List.mem_append_right zipL ?_
      exact List.mem_singleton.mpr rfl
  · rintro ⟨hsnap, fam, v, hpath, hshape⟩
    refine ⟨hsnap, (convScan_iff _).mpr ⟨fam, v ++ zipL, hpath, ?_, ?_⟩⟩
    · intro c hcmem
      apply hnl
      rw [hpath]
      exact List.mem_append_left _ hcmem
    · exact (convEnd_iff _).mpr ⟨v, hshape, Or.inl rfl⟩

/-- Witness for C1 at the conventional path "a-1.zip". -/
theorem c1_witness :
    (∀ c ∈ (Package.mk (("a-1.zip").toList) (("1 MB").toList)).path, c ≠ '\n') ∧
    (is_conventional (Package.mk (("a-1.zip").toList) (("1 MB").toList)) = true ↔
      (hasSub snapL (Package.mk (("a-1.zip").toList) (("1 MB").toList)).path = false ∧
       ∃ fam v, (Package.mk (("a-1.zip").toList) (("1 MB").toList)).path
           = fam ++ '-' :: (v ++ zipL) ∧ VersionShape v)) :=
  ⟨by decide, c1_conventional_pattern _ (by decide)⟩

/-! ## Lemmas about splitting and joining on a separator -/

theorem splitOnC_cons_eq (sep c : Char) (rest t : List Char) (ts : List (List Char))
    (h : splitOnC sep rest = t :: ts) :
    splitOnC sep (c :: rest) = if c = sep then [] :: t :: ts else (c :: t) :: ts := by
  unfold splitOnC
  rw [h]

theorem splitOnC_ne_nil (sep : Char) : ∀ s : List Char, splitOnC sep s ≠ [] := by
  intro s
  induction s with
  | nil => simp [splitOnC]
  | cons c rest ih =>
    match h : splitOnC sep rest with
    | [] => exact absurd h ih
    | t :: ts =>
      rw [splitOnC_cons_eq sep c rest t ts h]
      by_cases hc : c = sep
      · rw [if_pos hc]
        simp
      · rw [if_neg hc]
        simp

theorem splitOnC_free (sep : Char) :
    ∀ x : List Char, (∀ c ∈ x, c ≠ sep) → splitOnC sep x = [x] := by
  intro x
  induction x with
  | nil => intro _; rfl
  | cons c rest ih =>
    intro h
    have hrest := ih fun y hy => h y (List.mem_cons_of_mem c hy)
    rw [splitOnC_cons_eq sep c rest rest [] hrest]
    rw [if_neg (h c (List.mem_cons_self c rest))]

theorem splitOnC_append (sep : Char) :
    ∀ (x y : List Char), (∀ c ∈ x, c ≠ sep) →
      splitOnC sep (x ++ sep :: y) = x :: splitOnC sep y := by
  intro x
  induction x with
  | nil =>
    intro y _
    rw [List.nil_append]
    match h : splitOnC sep y with
    | [] => exact absurd h (splitOnC_ne_nil sep y)
    | t :: ts =>
      rw [splitOnC_cons_eq sep sep y t ts h, if_pos rfl]
  | cons c rest ih =>
    intro y h
    rw [List.cons_append]
    have hrec := ih y fun z hz => h z (List.mem_cons_of_mem c hz)
    match hsp : splitOnC sep y with
    | [] => exact absurd hsp (splitOnC_ne_nil sep y)
    | t :: ts =>
      rw [hsp] at hrec
      rw [splitOnC_cons_eq sep c (rest ++ sep :: y) rest (t :: ts) hrec]
      rw [if_neg (h c (List.mem_cons_self c rest))]

theorem joinWith_splitOnC (sep : Char) :
    ∀ s : List Char, joinWith sep (splitOnC sep s) = s := by
  intro s
  induction s with
  | nil => rfl
  | cons c rest ih =>
    match h : splitOnC sep rest with
    | [] => exact absurd h (splitOnC_ne_nil sep rest)
    | t :: ts =>
      rw [h] at ih
      rw [splitOnC_cons_eq sep c rest t ts h]
      by_cases hc : c = sep
      · rw [if_pos hc]
        have hj : joinWith sep ([] :: t :: ts) = sep :: joinWith sep (t :: ts) := rfl
        rw [hj, ih, hc]
      · rw [if_neg hc]
        match ts with
        | [] =>
          simp only [joinWith] at ih ⊢
          rw [ih]
        | u :: us =>
          simp only [joinWith] at ih ⊢
          rw [List.cons_append, ih]

/-! ## Greedy parse lemmas -/

/-- Without a dash there is no match of the name-version pattern. -/
theorem greedy_no_dash : ∀ s : List Char, (∀ c ∈ s, c ≠ '-') → greedyParse s = none := by
  intro s
  induction s with
  | nil => intro _; rfl
  | cons c rest ih =>
    intro h
    by_cases hnl : c = '\n'
    · simp [greedyParse, hnl]
    · simp only [greedyParse, if_neg hnl,
        ih fun x hx => h x (List.mem_cons_of_mem c hx)]
      rw [if_neg (h c (List.mem_cons_self c rest))]

/-- The greedy parse extends through a newline-free prefix, preferring the
deeper match. -/
theorem greedy_extend : ∀ (x s : List Char) (nv : List Char × List Char),
    (∀ c ∈ x, c ≠ '\n') → greedyParse s = some nv →
    greedyParse (x ++ s) = some (x ++ nv.1, nv.2) := by
  intro x
  induction x with
  | nil =>
    intro s nv _ h
    simpa using h
  | cons c x' ih =>
    intro s nv hnl h
    have hrec := ih s nv (fun y hy => hnl y (List.mem_cons_of_mem c hy)) h
    simp only [List.cons_append, greedyParse, List.append_eq,
      if_neg (hnl c (List.mem_cons_self c x')), hrec]

/-- When the digit run is nonempty and within the bound, the first greedy
candidate takes the whole run. -/
theorem digitsTake_cons (s : List Char) (m : Nat)
    (h1 : 1 ≤ (s.takeWhile isDigitC).length) (h2 : (s.takeWhile isDigitC).length ≤ m) :
    ∃ t, digitsTake s m = (s.takeWhile isDigitC, s.dropWhile isDigitC) :: t := by
  obtain ⟨n, hn⟩ : ∃ n, (s.takeWhile isDigitC).length = n + 1 :=
    ⟨(s.takeWhile isDigitC).length - 1, by omega⟩
  have hrun : min m (n + 1) = n + 1 := by omega
  have htd := tw_take_drop isDigitC s
  refine ⟨((List.range n).map fun i => i + 1).map
    fun j => (s.take (n + 1 - j), s.drop (n + 1 - j)), ?_⟩
  simp only [digitsTake, hn, hrun, List.range_succ_eq_map, List.map_cons, Nat.sub_zero]
  congr 1
  rw [Prod.mk.injEq]
  constructor
  · rw [← hn]
    exact htd.1
  · rw [← hn]
    exact htd.2

/-- Characters of a dotted three-segment version tail are digits, dots or
letters of ".zip": never a dash or a newline. -/
theorem struct_tail_chars (d1 d2 d3 : List Char)
    (hdg1 : ∀ c ∈ d1, isDigitC c = true) (hdg2 : ∀ c ∈ d2, isDigitC c = true)
    (hdg3 : ∀ c ∈ d3, isDigitC c = true) :
    ∀ c ∈ d1 ++ '.' :: (d2 ++ '.' :: (d3 ++ zipL)), c ≠ '-' ∧ c ≠ '\n' := by
  have hz : ∀ x ∈ zipL, x ≠ '-' ∧ x ≠ '\n' := by decide
  have hd : ∀ x : Char, isDigitC x = true → x ≠ '-' ∧ x ≠ '\n' := by
    intro x hx
    constructor
    · intro he
      subst he
      exact absurd hx (by decide)
    · intro he
      subst he
      exact absurd hx (by decide)
  intro c hc
  rcases List.mem_append.mp hc with h | h
  · exact hd c (hdg1 c h)
  rcases List.mem_cons.mp h with h | h
  · subst h
    exact ⟨by decide, by decide⟩
  rcases List.mem_append.mp h with h | h
  · exact hd c (hdg2 c h)
  rcases List.mem_cons.mp h with h | h
  · subst h
    exact ⟨by decide, by decide⟩
  rcases List.mem_append.mp h with h | h
  · exact hd c (hdg3 c h)
  · exact hz c h

/-- On a structured three-segment tail the greedy version match tries the
full dotted version first, leaving exactly ".zip". -/
theorem vc_structured_cons (d1 d2 d3 : List Char)
    (h1 : DigitSeg 1 3 d1) (h2 : DigitSeg 1 3 d2) (h3 : DigitSeg 1 4 d3) :
    ∃ t, versionCandidates (d1 ++ '.' :: (d2 ++ '.' :: (d3 ++ zipL)))
      = (d1 ++ '.' :: (d2 ++ '.' :: d3), zipL) :: t := by
  obtain ⟨hlo1, hhi1, hdg1⟩ := h1
  obtain ⟨hlo2, hhi2, hdg2⟩ := h2
  obtain ⟨hlo3, hhi3, hdg3⟩ := h3
  have hdot : isDigitC '.' = false := by decide
  have hzip : zipL = '.' :: ('z' :: 'i' :: 'p' :: []) := rfl
  have t1 := tw_append_stop isDigitC d1 '.' (d2 ++ '.' :: (d3 ++ zipL)) hdg1 hdot
  have t2 := tw_append_stop isDigitC d2 '.' (d3 ++ zipL) hdg2 hdot
  have t3 := tw_append_stop isDigitC d3 '.' ('z' :: 'i' :: 'p' :: []) hdg3 hdot
  have htw3 : (d3 ++ zipL).takeWhile isDigitC = d3 := by
    rw [hzip]
    exact t3.1
  have hdw3 : (d3 ++ zipL).dropWhile isDigitC = zipL := by
    rw [hzip]
    exact t3.2
  obtain ⟨tl1, hd1⟩ := digitsTake_cons (d1 ++ '.' :: (d2 ++ '.' :: (d3 ++ zipL))) 3
    (by rw [t1.1]; omega) (by rw [t1.1]; omega)
  rw [t1.1, t1.2] at hd1
  obtain ⟨tl2, hd2⟩ := digitsTake_cons (d2 ++ '.' :: (d3 ++ zipL)) 3
    (by rw [t2.1]; omega) (by rw [t2.1]; omega)
  rw [t2.1, t2.2] at hd2
  obtain ⟨tl3, hd3⟩ := digitsTake_cons (d3 ++ zipL) 4
    (by rw [htw3]; omega) (by rw [htw3]; omega)
  rw [htw3, hdw3] at hd3
  have hod : optDot ('.' :: (d2 ++ '.' :: (d3 ++ zipL))) 3
      = ('.' :: d2, '.' :: (d3 ++ zipL)) ::
        ((tl2.map fun p => ('.' :: p.1, p.2))
          ++ [([], '.' :: (d2 ++ '.' :: (d3 ++ zipL)))]) := by
    have hopen : optDot ('.' :: (d2 ++ '.' :: (d3 ++ zipL))) 3
        = ((digitsTake (d2 ++ '.' :: (d3 ++ zipL)) 3).map fun p => ('.' :: p.1, p.2))
          ++ [([], '.' :: (d2 ++ '.' :: (d3 ++ zipL)))] := by
      simp [optDot]
    rw [hopen, hd2, List.map_cons, List.cons_append]
  have hoa : optAny ('.' :: (d3 ++ zipL)) 4
      = ('.' :: d3, zipL) ::
        ((tl3.map fun p => ('.' :: p.1, p.2)) ++ [([], '.' :: (d3 ++ zipL))]) := by
    have hopen : optAny ('.' :: (d3 ++ zipL)) 4
        = ((digitsTake (d3 ++ zipL) 4).map fun p => ('.' :: p.1, p.2))
          ++ [([], '.' :: (d3 ++ zipL))] := by
      simp [optAny]
    rw [hopen, hd3, List.map_cons, List.cons_append]
  exact ⟨_, by
    simp only [versionCandidates]
    rw [hd1]
    simp only [List.flatMap_cons]
    rw [hod]
    simp only [List.flatMap_append, List.flatMap_cons]
    rw [hoa]
    simp only [List.map_append, List.map_cons]
    simp only [List.cons_append, List.append_assoc]
    rfl⟩

/-- On a structured three-segment tail the version-zip matcher returns the
full dotted version. -/
theorem mvz_structured (d1 d2 d3 : List Char)
    (h1 : DigitSeg 1 3 d1) (h2 : DigitSeg 1 3 d2) (h3 : DigitSeg 1 4 d3) :
    matchVersionZip (d1 ++ '.' :: (d2 ++ '.' :: (d3 ++ zipL)))
      = some (d1 ++ '.' :: (d2 ++ '.' :: d3)) := by
  obtain ⟨t, ht⟩ := vc_structured_cons d1 d2 d3 h1 h2 h3
  have hlw : leadsWith zipL zipL = true := by decide
  simp only [matchVersionZip]
  rw [ht]
  simp only [List.findSome?_cons, hlw]
  simp

/-- A digit differs from any non-digit character. -/
theorem digit_ne (x y : Char) (hx : isDigitC x = true) (hy : isDigitC y = false) : x ≠ y := by
  intro he
  subst he
  rw [hx] at hy
  exact absurd hy (by simp)

/-- Digit strings contain no dot. -/
theorem digits_no_dot (d : List Char) (hd : ∀ c ∈ d, isDigitC c = true) :
    ∀ c ∈ d, c ≠ '.' :=
  fun c hc => digit_ne c '.' (hd c hc) (by decide)

/-- Digit strings have no non-digit characters. -/
theorem filter_digits_nil (d : List Char) (hd : ∀ c ∈ d, isDigitC c = true) :
    (d.filter fun c => !isDigitC c) = [] := by
  apply List.filter_eq_nil_iff.mpr
  intro a ha
  simp [hd a ha]

/-- An accepted version shape has at most two non-digit characters. -/
theorem shape_nondigit_le (v : List Char) (h : VersionShape v) :
    (v.filter fun c => !isDigitC c).length ≤ 2 := by
  obtain ⟨s1, s2, s3, hv, ⟨_, _, hdg1⟩, hseg2, hseg3⟩ := h
  subst hv
  rw [List.filter_append, List.filter_append, List.length_append, List.length_append]
  rw [filter_digits_nil s1 hdg1]
  have h2 : (s2.filter fun c => !isDigitC c).length ≤ 1 := by
    rcases hseg2 with h2e | ⟨dd, h2c, _, _, hdd⟩
    · subst h2e
      simp
    · subst h2c
      rw [List.filter_cons]
      rw [if_pos (by decide)]
      rw [filter_digits_nil dd hdd]
      simp
  have h3 : (s3.filter fun c => !isDigitC c).length ≤ 1 := by
    rcases hseg3 with h3e | ⟨c, ee, h3c, _, _, _, hee⟩
    · subst h3e
      simp
    · subst h3c
      rw [List.filter_cons]
      rw [filter_digits_nil ee hee]
      cases hic : (!isDigitC c)
      · simp
      · simp
  simp only [List.length_nil]
  omega

/-- Locating the dash of a successful match in a path whose tail after the
known dash is dash-free: the match either uses exactly that dash, or an
earlier one. -/
theorem dash_split_cases (a b pre tail : List Char)
    (h : a ++ '-' :: b = pre ++ '-' :: tail) (htail : ∀ c ∈ tail, c ≠ '-') :
    (a = pre ∧ b = tail) ∨ (∃ m, pre = a ++ '-' :: m ∧ b = m ++ '-' :: tail) := by
  rcases List.append_eq_append_iff.mp h with ⟨e, hc, hb⟩ | ⟨e, ha, hd⟩
  · match e, hb with
    | [], hb =>
      rw [List.nil_append] at hb
      injection hb with _ h2
      rw [List.append_nil] at hc
      exact Or.inl ⟨hc.symm, h2⟩
    | x :: e', hb =>
      rw [List.cons_append] at hb
      injection hb with h1 h2
      subst h1
      exact Or.inr ⟨e', hc, h2⟩
  · match e, hd with
    | [], hd =>
      rw [List.nil_append] at hd
      injection hd with _ h2
      rw [List.append_nil] at ha
      exact Or.inl ⟨ha, h2.symm⟩
    | x :: e', hd =>
      rw [List.cons_append] at hd
      injection hd with h1 h2
      exfalso
      refine htail '-' ?_ rfl
      rw [h2]
      exact List.mem_append_right e' (List.mem_cons_self '-' b)

/-- An accepted version shape whose dot-split has exactly the three numeric
segments obeys the 3/3/4 digit-width bounds of the regex. -/
theorem shape_split_three (v d1 d2 d3 : List Char) (hshape : VersionShape v)
    (hsplit : splitOnC '.' v = [d1, d2, d3]) :
    d1.length ≤ 3 ∧ d2.length ≤ 3 ∧ d3.length ≤ 4 := by
  obtain ⟨s1, s2, s3, hv, ⟨_, hhi1, hdg1⟩, hseg2, hseg3⟩ := hshape
  have hf1 := digits_no_dot s1 hdg1
  rcases hseg2 with h2e | ⟨dd, h2c, ⟨_, hhidd, hdgdd⟩⟩ <;>
    rcases hseg3 with h3e | ⟨c, ee, h3c, hcnl, ⟨_, hhiee, hdgee⟩⟩
  · subst h2e
    subst h3e
    rw [List.append_nil, List.append_nil] at hv
    rw [hv] at hsplit
    rw [splitOnC_free '.' s1 hf1] at hsplit
    exact absurd (congrArg List.length hsplit) (by simp)
  · subst h2e
    subst h3c
    rw [List.append_nil] at hv
    subst hv
    by_cases hc : c = '.'
    · subst hc
      rw [splitOnC_append '.' s1 ee hf1, splitOnC_free '.' ee (digits_no_dot ee hdgee)]
        at hsplit
      exact absurd (congrArg List.length hsplit) (by simp)
    · have hfree : ∀ x ∈ s1 ++ c :: ee, x ≠ '.' := by
        intro x hx
        rcases List.mem_append.mp hx with h | h
        · exact hf1 x h
        rcases List.mem_cons.mp h with h | h
        · subst h
          exact hc
        · exact digits_no_dot ee hdgee x h
      rw [splitOnC_free '.' _ hfree] at hsplit
      exact absurd (congrArg List.length hsplit) (by simp)
  · subst h2c
    subst h3e
    rw [List.append_nil] at hv
    subst hv
    rw [splitOnC_append '.' s1 dd hf1, splitOnC_free '.' dd (digits_no_dot dd hdgdd)]
      at hsplit
    exact absurd (congrArg List.length hsplit) (by simp)
  · subst h2c
    subst h3c
    subst hv
    by_cases hc : c = '.'
    · subst hc
      rw [List.append_assoc, List.cons_append] at hsplit
      rw [splitOnC_append '.' s1 (dd ++ '.' :: ee) hf1] at hsplit
      rw [splitOnC_append '.' dd ee (digits_no_dot dd hdgdd)] at hsplit
      rw [splitOnC_free '.' ee (digits_no_dot ee hdgee)] at hsplit
      injection hsplit with e1 hsplit
      injection hsplit with e2 hsplit
      injection hsplit with e3 _
      subst e1
      subst e2
      subst e3
      omega
    · rw [List.append_assoc, List.cons_append] at hsplit
      rw [splitOnC_append '.' s1 (dd ++ c :: ee) hf1] at hsplit
      have hfree : ∀ x ∈ dd ++ c :: ee, x ≠ '.' := by
        intro x hx
        rcases List.mem_append.mp hx with h | h
        · exact digits_no_dot dd hdgdd x h
        rcases List.mem_cons.mp h with h | h
        · subst h
          exact hc
        · exact digits_no_dot ee hdgee x h
      rw [splitOnC_free '.' _ hfree] at hsplit
      exact absurd (congrArg List.length hsplit) (by simp)

/-- Conventionality of a dash-structured three-segment path forces the
regex's 3/3/4 digit-width bounds and a newline-free family prefix. -/
theorem structured_bounds (pre d1 d2 d3 : List Char)
    (hdg1 : ∀ c ∈ d1, isDigitC c = true)
    (hdg2 : ∀ c ∈ d2, isDigitC c = true)
    (hdg3 : ∀ c ∈ d3, isDigitC c = true)
    (hconv : convScan (pre ++ '-' :: (d1 ++ '.' :: (d2 ++ '.' :: (d3 ++ zipL)))) = true) :
    d1.length ≤ 3 ∧ d2.length ≤ 3 ∧ d3.length ≤ 4 ∧ ∀ c ∈ pre, c ≠ '\n' := by
  have hchars := struct_tail_chars d1 d2 d3 hdg1 hdg2 hdg3
  obtain ⟨a, b, hs, hnla, hend⟩ := (convScan_iff _).mp hconv
  obtain ⟨v, hshape, hb⟩ := (convEnd_iff b).mp hend
  rcases dash_split_cases a b pre (d1 ++ '.' :: (d2 ++ '.' :: (d3 ++ zipL))) hs.symm
      (fun c hc => (hchars c hc).1) with ⟨hap, hbt⟩ | ⟨m, hpre, hbm⟩
  · rcases hb with hb | hb
    · have hvz : v ++ zipL = (d1 ++ '.' :: (d2 ++ '.' :: d3)) ++ zipL := by
        rw [← hb, hbt]
        simp only [List.cons_append, List.append_assoc]
      have hveq : v = d1 ++ '.' :: (d2 ++ '.' :: d3) := List.append_cancel_right hvz
      have hsplit : splitOnC '.' v = [d1, d2, d3] := by
        rw [hveq]
        rw [splitOnC_append '.' d1 (d2 ++ '.' :: d3) (digits_no_dot d1 hdg1)]
        rw [splitOnC_append '.' d2 d3 (digits_no_dot d2 hdg2)]
        rw [splitOnC_free '.' d3 (digits_no_dot d3 hdg3)]
      obtain ⟨hb1, hb2, hb3⟩ := shape_split_three v d1 d2 d3 hshape hsplit
      exact ⟨hb1, hb2, hb3, hap ▸ hnla⟩
    · exfalso
      have hnl : '\n' ∈ b := by
        rw [hb]
        refine List.mem_append_right v (List.mem_append_right zipL ?_)
        exact List.mem_singleton.mpr rfl
      rw [hbt] at hnl
      exact (hchars '\n' hnl).2 rfl
  · exfalso
    rcases hb with hb | hb
    · have hvz : v ++ zipL = (m ++ '-' :: (d1 ++ '.' :: (d2 ++ '.' :: d3))) ++ zipL := by
        rw [← hb, hbm]
        simp only [List.cons_append, List.append_assoc]
      have hveq : v = m ++ '-' :: (d1 ++ '.' :: (d2 ++ '.' :: d3)) :=
        List.append_cancel_right hvz
      have hX : (d1 ++ '.' :: (d2 ++ '.' :: d3)).filter (fun c => !isDigitC c)
          = ['.', '.'] := by
        rw [List.filter_append, filter_digits_nil d1 hdg1, List.filter_cons,
          if_pos (by decide)]
        rw [List.filter_append, filter_digits_nil d2 hdg2, List.filter_cons,
          if_pos (by decide)]
        rw [filter_digits_nil d3 hdg3]
        rfl
      have hcount : 2 < (v.filter fun c => !isDigitC c).length := by
        rw [hveq, List.filter_append, List.filter_cons, if_pos (by decide), hX]
        simp only [List.length_append, List.length_cons, List.length_nil]
        omega
      exact absurd (shape_nondigit_le v hshape) (by omega)
    · have he : m ++ '-' :: (d1 ++ '.' :: (d2 ++ '.' :: (d3 ++ zipL)))
          = v ++ (zipL ++ ['\n']) := by
        rw [← hbm, hb]
      have hzr : zipL.reverse = 'p' :: 'i' :: 'z' :: '.' :: [] := rfl
      have hrev := congrArg List.reverse he
      simp only [List.reverse_append, List.reverse_cons, hzr, List.append_assoc,
        List.cons_append, List.nil_append, List.singleton_append] at hrev
      simp at hrev

/-- C9: for every conventional path of the form
`prefix ++ "-" ++ d1 ++ "." ++ d2 ++ "." ++ d3 ++ ".zip"` with numeric
segments, separate_name_from_version parses it and reconstructing
`familyIdentity + '.'.join(tokens) + ".zip"` reproduces the original path
exactly. -/
theorem c9_parse_reconstruction (pre d1 d2 d3 sz : List Char)
    (hdg1 : ∀ c ∈ d1, isDigitC c = true) (hne1 : d1 ≠ [])
    (hdg2 : ∀ c ∈ d2, isDigitC c = true) (hne2 : d2 ≠ [])
    (hdg3 : ∀ c ∈ d3, isDigitC c = true) (hne3 : d3 ≠ [])
    (hconv : is_conventional
      ⟨pre ++ '-' :: (d1 ++ '.' :: (d2 ++ '.' :: (d3 ++ zipL))), sz⟩ = true) :
    ∃ n toks,
      separate_name_from_version
          (pre ++ '-' :: (d1 ++ '.' :: (d2 ++ '.' :: (d3 ++ zipL))))
        = some (n, toks) ∧
      n ++ joinWith '.' toks ++ zipL
        = pre ++ '-' :: (d1 ++ '.' :: (d2 ++ '.' :: (d3 ++ zipL))) := by
  have hscan : convScan (pre ++ '-' :: (d1 ++ '.' :: (d2 ++ '.' :: (d3 ++ zipL))))
      = true := ((Bool.and_eq_true _ _).mp hconv).2
  obtain ⟨hb1, hb2, hb3, hnlpre⟩ := structured_bounds pre d1 d2 d3 hdg1 hdg2 hdg3 hscan
  have hlen1 : 1 ≤ d1.length := List.length_pos.mpr hne1
  have hlen2 : 1 ≤ d2.length := List.length_pos.mpr hne2
  have hlen3 : 1 ≤ d3.length := List.length_pos.mpr hne3
  have hmvz := mvz_structured d1 d2 d3 ⟨hlen1, hb1, hdg1⟩ ⟨hlen2, hb2, hdg2⟩
    ⟨hlen3, hb3, hdg3⟩
  have hchars := struct_tail_chars d1 d2 d3 hdg1 hdg2 hdg3
  have hgtail : greedyParse (d1 ++ '.' :: (d2 ++ '.' :: (d3 ++ zipL))) = none :=
    greedy_no_dash _ fun c hc => (hchars c hc).1
  have hgdash : greedyParse ('-' :: (d1 ++ '.' :: (d2 ++ '.' :: (d3 ++ zipL))))
      = some (['-'], d1 ++ '.' :: (d2 ++ '.' :: d3)) := by
    simp only [greedyParse, hgtail, hmvz]
    simp
  have hg := greedy_extend pre ('-' :: (d1 ++ '.' :: (d2 ++ '.' :: (d3 ++ zipL))))
    (['-'], d1 ++ '.' :: (d2 ++ '.' :: d3)) hnlpre hgdash
  refine ⟨pre ++ ['-'], [d1, d2, d3], ?_, ?_⟩
  · simp only [separate_name_from_version, hg]
    rw [splitOnC_append '.' d1 (d2 ++ '.' :: d3) (digits_no_dot d1 hdg1)]
    rw [splitOnC_append '.' d2 d3 (digits_no_dot d2 hdg2)]
    rw [splitOnC_free '.' d3 (digits_no_dot d3 hdg3)]
  · have hjoin : joinWith '.' [d1, d2, d3] = d1 ++ '.' :: (d2 ++ '.' :: d3) := rfl
    rw [hjoin]
    simp only [List.append_assoc, List.cons_append, List.singleton_append,
      List.nil_append]

/-- Witness for C9 at the path "pkg-1.22.333.zip". -/
theorem c9_witness :
    ∃ n toks,
      separate_name_from_version
          ((("pkg").toList) ++ '-' :: ((("1").toList) ++ '.' ::
            ((("22").toList) ++ '.' :: ((("333").toList) ++ zipL))))
        = some (n, toks) ∧
      n ++ joinWith '.' toks ++ zipL
        = (("pkg").toList) ++ '-' :: ((("1").toList) ++ '.' ::
            ((("22").toList) ++ '.' :: ((("333").toList) ++ zipL))) :=
  c9_parse_reconstruction (("pkg").toList) (("1").toList) (("22").toList)
    (("333").toList) (("1 MB").toList)
    (by decide) (by decide) (by decide) (by decide) (by decide) (by decide) (by decide)

/-! ## Lemmas for the run pipeline -/

/-- Every record kept by the snapshot loop has ".snapshot" in its path. -/
theorem snapLoop_snapshots (names : List (List Char)) :
    ∀ (l r : List Package), snapLoop names l = some r →
      ∀ q ∈ r, hasSub snapL q.path = true := by
  intro l
  induction l with
  | nil =>
    intro r h q hq
    simp only [snapLoop] at h
    rw [← Option.some.inj h] at hq
    simp at hq
  | cons p rest ih =>
    intro r h q hq
    simp only [snapLoop] at h
    by_cases hsnap : hasSub snapL p.path = true
    · rw [if_pos hsnap] at h
      cases hgp : get_package_name_from_path p.path with
      | none =>
        simp only [hgp] at h
        exact absurd h (by simp)
      | some n =>
        simp only [hgp] at h
        cases hsl : snapLoop names rest with
        | none =>
          simp only [hsl] at h
          exact absurd h (by simp)
        | some rr =>
          simp only [hsl] at h
          have hr : r = if n ∈ names then p :: rr else rr := (Option.some.inj h).symm
          subst hr
          by_cases hmem : n ∈ names
          · rw [if_pos hmem] at hq
            rcases List.mem_cons.mp hq with h1 | h1
            · rw [h1]
              exact hsnap
            · exact ih rr hsl q h1
          · rw [if_neg hmem] at hq
            exact ih rr hsl q hq
    · rw [if_neg hsnap] at h
      exact ih r h q hq

/-- Every record returned by find_outdated_snapshots has ".snapshot" in its
path. -/
theorem find_outdated_snapshots_snaps (packages outdated snaps : List Package)
    (h : find_outdated_snapshots packages outdated = some snaps) :
    ∀ q ∈ snaps, hasSub snapL q.path = true := by
  simp only [find_outdated_snapshots] at h
  cases hn : namesLoop outdated with
  | none =>
    simp only [hn] at h
    exact absurd h (by simp)
  | some names =>
    simp only [hn] at h
    exact snapLoop_snapshots names packages snaps h

/-- Delete requests of the purge loop only target packages of the list it was
given. -/
theorem purgeActions_delete (out : List Package) (force : Bool)
    (ans : List Char → Bool) (pth : List Char)
    (h : RunAct.deleteCall pth ∈ purgeActions out force ans) :
    ∃ p, p ∈ out ∧ p.path = pth := by
  simp only [purgeActions, List.mem_flatMap] at h
  obtain ⟨p, hp, hmem⟩ := h
  refine ⟨p, hp, ?_⟩
  by_cases hf : force = true
  · rw [if_pos hf] at hmem
    simp only [List.mem_singleton, RunAct.deleteCall.injEq] at hmem
    exact hmem.symm
  · rw [if_neg hf] at hmem
    rcases List.mem_cons.mp hmem with h1 | h1
    · exact absurd h1 (by simp)
    · by_cases ha : ans p.path = true
      · rw [if_pos ha] at h1
        simp only [List.mem_singleton, RunAct.deleteCall.injEq] at h1
        exact h1.symm
      · rw [if_neg ha] at h1
        simp at h1

/-- C7: whenever a run reaches the purge stage, every record submitted to the
deletion loop is conventional (hence not a snapshot), the accounted set is
the submitted set plus correlated snapshot records, and every delete
request issued by the run targets a submitted outdated record — correlated
snapshots enter only the size accounting, never the deletion loop. -/
theorem c7_purge_scope (packages out acc : List Package)
    (h : mainPlan packages = RunOutcome.purge out acc) :
    (∀ p ∈ out, is_conventional p = true) ∧
    (∀ p ∈ out, hasSub snapL p.path = false) ∧
    (∃ snaps, acc = out ++ snaps ∧ ∀ q ∈ snaps, hasSub snapL q.path = true) ∧
    (∀ (bulkYes force : Bool) (ans : List Char → Bool) (pth : List Char),
      RunAct.deleteCall pth ∈ mainActions packages bulkYes force ans →
      ∃ p, p ∈ out ∧ p.path = pth) := by
  have hmain := h
  simp only [mainPlan] at hmain
  cases hdb : determine_best_packages (packages.filter is_conventional) with
  | none =>
    simp only [hdb] at hmain
    exact absurd hmain (by simp)
  | some best =>
    simp only [hdb] at hmain
    by_cases hlen :
        ((packages.filter is_conventional).filter fun p => !decide (p ∈ best)).length = 0
    · rw [if_pos hlen] at hmain
      exact absurd hmain (by simp)
    · rw [if_neg hlen] at hmain
      cases hsn : find_outdated_snapshots packages
          ((packages.filter is_conventional).filter fun p => !decide (p ∈ best)) with
      | none =>
        simp only [hsn] at hmain
        exact absurd hmain (by simp)
      | some snaps =>
        simp only [hsn] at hmain
        have hout : ((packages.filter is_conventional).filter
            fun p => !decide (p ∈ best)) = out := by
          injection hmain
        have hacc : ((packages.filter is_conventional).filter
            fun p => !decide (p ∈ best)) ++ snaps = acc := by
          injection hmain
        have houtconv : ∀ p ∈ out, is_conventional p = true := by
          intro p hp
          rw [← hout] at hp
          exact (List.mem_filter.mp (List.mem_filter.mp hp).1).2
        refine ⟨houtconv, ?_, ⟨snaps, ?_, ?_⟩, ?_⟩
        · intro p hp
          have := houtconv p hp
          rw [is_conventional, Bool.and_eq_true, Bool.not_eq_true'] at this
          exact this.1
        · rw [← hacc, hout]
        · exact find_outdated_snapshots_snaps packages _ snaps hsn
        · intro bulkYes force ans pth hdel
          simp only [mainActions, h] at hdel
          rcases List.mem_cons.mp hdel with h1 | h1
          · exact absurd h1 (by simp)
          · by_cases hb : bulkYes = true
            · rw [if_pos hb] at h1
              exact purgeActions_delete out force ans pth h1
            · rw [if_neg hb] at h1
              simp at h1

/-- Witness for C7 on two same-family conventional records, where the older
one is purged and no snapshots correlate. -/
theorem c7_witness :
    (∀ p ∈ [(⟨("/etc/a-1.zip").toList, ("1 MB").toList⟩ : Package)],
      is_conventional p = true) ∧
    (∀ p ∈ [(⟨("/etc/a-1.zip").toList, ("1 MB").toList⟩ : Package)],
      hasSub snapL p.path = false) ∧
    (∃ snaps, [(⟨("/etc/a-1.zip").toList, ("1 MB").toList⟩ : Package)]
        = [(⟨("/etc/a-1.zip").toList, ("1 MB").toList⟩ : Package)] ++ snaps ∧
      ∀ q ∈ snaps, hasSub snapL q.path = true) ∧
    (∀ (bulkYes force : Bool) (ans : List Char → Bool) (pth : List Char),
      RunAct.deleteCall pth ∈ mainActions
        [⟨("/etc/a-1.zip").toList, ("1 MB").toList⟩,
         ⟨("/etc/a-2.zip").toList, ("1 MB").toList⟩] bulkYes force ans →
      ∃ p, p ∈ [(⟨("/etc/a-1.zip").toList, ("1 MB").toList⟩ : Package)] ∧ p.path = pth) :=
  c7_purge_scope
    [⟨("/etc/a-1.zip").toList, ("1 MB").toList⟩,
     ⟨("/etc/a-2.zip").toList, ("1 MB").toList⟩]
    [⟨("/etc/a-1.zip").toList, ("1 MB").toList⟩]
    [⟨("/etc/a-1.zip").toList, ("1 MB").toList⟩]
    (by decide)

/-- C8: when the derived outdated set (conventional records minus best
records) is empty, the run ends in the nothing-to-purge exit taken before
the confirmation prompt: its interaction trace is empty, so no prompt is
shown and no delete call is made. -/
theorem c8_empty_outdated_terminates (packages best : List Package)
    (hbest : determine_best_packages (packages.filter is_conventional) = some best)
    (hempty : (packages.filter is_conventional).filter
        (fun p => !decide (p ∈ best)) = []) :
    mainPlan packages = RunOutcome.nothingToPurge ∧
    ∀ (bulkYes force : Bool) (ans : List Char → Bool),
      mainActions packages bulkYes force ans = [] := by
  have hplan : mainPlan packages = RunOutcome.nothingToPurge := by
    simp only [mainPlan, hbest]
    simp [hempty]
  refine ⟨hplan, ?_⟩
  intro bulkYes force ans
  simp only [mainActions, hplan]

/-- Witness for C8 on a single conventional record, which is its own best
version. -/
theorem c8_witness :
    mainPlan [(⟨("/etc/a-1.zip").toList, ("1 MB").toList⟩ : Package)]
      = RunOutcome.nothingToPurge ∧
    ∀ (bulkYes force : Bool) (ans : List Char → Bool),
      mainActions [(⟨("/etc/a-1.zip").toList, ("1 MB").toList⟩ : Package)]
        bulkYes force ans = [] :=
  c8_empty_outdated_terminates
    [⟨("/etc/a-1.zip").toList, ("1 MB").toList⟩]
    [⟨("/etc/a-1.zip").toList, ("1 MB").toList⟩]
    (by decide) (by decide)

/-! ## Dictionary lemmas -/

theorem dictFind_some_mem (d : VDict) (k : List Char) (v : List (List Char))
    (h : dictFind d k = some v) : (k, v) ∈ d := by
  induction d with
  | nil => simp [dictFind] at h
  | cons kv rest ih =>
    simp only [dictFind] at h
    by_cases hk : k = kv.1
    · rw [if_pos hk] at h
      have hv := Option.some.inj h
      have hkv : (k, v) = kv := by
        rw [hk, ← hv]
      rw [hkv]
      exact List.mem_cons_self _ _
    · exact List.mem_cons_of_mem _ (ih (by rw [if_neg hk] at h; exact h))

theorem dictFind_of_mem (d : VDict) (hnd : (d.map Prod.fst).Nodup)
    (k : List Char) (v : List (List Char)) (h : (k, v) ∈ d) :
    dictFind d k = some v := by
  induction d with
  | nil => simp at h
  | cons kv rest ih =>
    simp only [List.map_cons, List.nodup_cons] at hnd
    simp only [dictFind]
    rcases List.mem_cons.mp h with h1 | h1
    · rw [← h1]
      rw [if_pos rfl]
    · by_cases hk : k = kv.1
      · exfalso
        apply hnd.1
        rw [← hk]
        exact List.mem_map.mpr ⟨(k, v), h1, rfl⟩
      · rw [if_neg hk]
        exact ih hnd.2 h1

theorem dictFind_dictSet_self (d : VDict) (k : List Char) (v : List (List Char)) :
    dictFind (dictSet d k v) k = some v := by
  induction d with
  | nil => simp [dictSet, dictFind]
  | cons kv rest ih =>
    simp only [dictSet]
    by_cases hk : k = kv.1
    · rw [if_pos hk]
      simp [dictFind]
    · rw [if_neg hk]
      simp only [dictFind]
      rw [if_neg hk]
      exact ih

theorem dictFind_dictSet_other (d : VDict) (k k' : List Char) (v : List (List Char))
    (hne : k' ≠ k) : dictFind (dictSet d k v) k' = dictFind d k' := by
  induction d with
  | nil => simp [dictSet, dictFind, hne]
  | cons kv rest ih =>
    simp only [dictSet]
    by_cases hk : k = kv.1
    · rw [if_pos hk]
      simp only [dictFind]
      rw [if_neg hne, if_neg (by rw [← hk]; exact hne)]
    · rw [if_neg hk]
      simp only [dictFind]
      by_cases h2 : k' = kv.1
      · rw [if_pos h2, if_pos h2]
      · rw [if_neg h2, if_neg h2]
        exact ih

theorem keys_dictSet_sub (d : VDict) (k : List Char) (v : List (List Char)) :
    ∀ x, x ∈ (dictSet d k v).map Prod.fst → x ∈ d.map Prod.fst ∨ x = k := by
  induction d with
  | nil =>
    intro x hx
    simp [dictSet] at hx
    exact Or.inr hx
  | cons kv rest ih =>
    intro x hx
    simp only [dictSet] at hx
    by_cases hk : k = kv.1
    · rw [if_pos hk] at hx
      simp only [List.map_cons, List.mem_cons] at hx ⊢
      rcases hx with h1 | h1
      · exact Or.inr h1
      · exact Or.inl (Or.inr h1)
    · rw [if_neg hk] at hx
      simp only [List.map_cons, List.mem_cons] at hx ⊢
      rcases hx with h1 | h1
      · exact Or.inl (Or.inl h1)
      · rcases ih x h1 with h2 | h2
        · exact Or.inl (Or.inr h2)
        · exact Or.inr h2

theorem dictSet_keys_nodup (d : VDict) (k : List Char) (v : List (List Char))
    (h : (d.map Prod.fst).Nodup) : ((dictSet d k v).map Prod.fst).Nodup := by
  induction d with
  | nil => simp [dictSet]
  | cons kv rest ih =>
    simp only [dictSet]
    by_cases hk : k = kv.1
    · rw [if_pos hk]
      simp only [List.map_cons, List.nodup_cons] at h ⊢
      rw [hk] at *
      exact h
    · rw [if_neg hk]
      simp only [List.map_cons, List.nodup_cons] at h ⊢
      constructor
      · intro hmem
        rcases keys_dictSet_sub rest k v kv.1 hmem with h2 | h2
        · exact h.1 h2
        · exact hk h2.symm
      · exact ih h.2

theorem mem_dictSet_sub (d : VDict) (k : List Char) (v : List (List Char)) :
    ∀ kv ∈ dictSet d k v, kv = (k, v) ∨ kv ∈ d := by
  induction d with
  | nil =>
    intro kv hkv
    simp [dictSet] at hkv
    exact Or.inl hkv
  | cons kv0 rest ih =>
    intro kv hkv
    simp only [dictSet] at hkv
    by_cases hk : k = kv0.1
    · rw [if_pos hk] at hkv
      rcases List.mem_cons.mp hkv with h1 | h1
      · exact Or.inl h1
      · exact Or.inr (List.mem_cons_of_mem _ h1)
    · rw [if_neg hk] at hkv
      rcases List.mem_cons.mp hkv with h1 | h1
      · exact Or.inr (by rw [h1]; exact List.mem_cons_self _ _)
      · rcases ih kv h1 with h2 | h2
        · exact Or.inl h2
        · exact Or.inr (List.mem_cons_of_mem _ h2)

theorem nodup_key_unique (d : VDict) (hnd : (d.map Prod.fst).Nodup)
    (n : List Char) (v w : List (List Char)) (hv : (n, v) ∈ d) (hw : (n, w) ∈ d) :
    v = w := by
  have h1 := dictFind_of_mem d hnd n v hv
  have h2 := dictFind_of_mem d hnd n w hw
  rw [h1] at h2
  exact Option.some.inj h2

/-- In a list with pairwise distinct paths, members with equal paths are
equal. -/
theorem pairwise_path_eq (l : List Package) (hl : l.Pairwise fun p q => p.path ≠ q.path) :
    ∀ p ∈ l, ∀ q ∈ l, p.path = q.path → p = q := by
  induction l with
  | nil =>
    intro p hp
    simp at hp
  | cons a rest ih =>
    have hpw := List.pairwise_cons.mp hl
    intro p hp q hq heq
    rcases List.mem_cons.mp hp with h1 | h1 <;> rcases List.mem_cons.mp hq with h2 | h2
    · rw [h1, h2]
    · exfalso
      subst h1
      exact hpw.1 q h2 heq
    · exfalso
      subst h2
      exact hpw.1 p h1 heq.symm
    · exact ih hpw.2 p h1 q h2 heq

theorem nodup_all_eq_singleton (l : List Package) (a : Package) (hnd : l.Nodup)
    (hall : ∀ x ∈ l, x = a) (hmem : a ∈ l) : l = [a] := by
  cases l with
  | nil => simp at hmem
  | cons x rest =>
    have hx : x = a := hall x (List.mem_cons_self x rest)
    subst hx
    have hnotin := (List.nodup_cons.mp hnd).1
    have hrest : rest = [] := by
      cases rest with
      | nil => rfl
      | cons y ys =>
        exfalso
        apply hnotin
        have hy : y = x := hall y (List.mem_cons_of_mem x (List.mem_cons_self y ys))
        rw [← hy]
        exact List.mem_cons_self y ys
    rw [hrest]

/-- One iteration of the best-version loop succeeds and preserves the
invariant when the new package parses, its path differs from every
processed package's path, and it is separated from every processed package
of its own family. -/
theorem stepBest_inv (seen : List Package) (d : VDict) (p : Package)
    (hpar : ParsesB p)
    (hcross : ∀ q ∈ seen, q.path ≠ p.path)
    (hsepp : ∀ q ∈ seen, parsedName q = parsedName p →
      q = p ∨ SepVer (parsedVer q) (parsedVer p))
    (hinv : BestInv seen d) :
    ∃ d2, stepBest d p = some d2 ∧ BestInv (seen ++ [p]) d2 := by
  obtain ⟨hnd, hI1, hI2⟩ := hinv
  obtain ⟨hsome, hrecon⟩ := hpar
  have hsnv : separate_name_from_version p.path = some (parsedName p, parsedVer p) := by
    cases hx : separate_name_from_version p.path with
    | none =>
      rw [hx] at hsome
      simp at hsome
    | some nv => simp [parsedName, parsedVer, hx]
  cases hf : dictFind d (parsedName p) with
  | none =>
    refine ⟨dictSet d (parsedName p) (parsedVer p), ?_, ?_, ?_, ?_⟩
    · simp only [stepBest, hsnv, hf]
    · exact dictSet_keys_nodup d _ _ hnd
    · intro kv hkv
      rcases mem_dictSet_sub d _ _ kv hkv with h1 | h1
      · exact ⟨p, List.mem_append_right seen (List.mem_cons_self p []),
          by rw [h1], by rw [h1]⟩
      · obtain ⟨q, hq, hqn, hqv⟩ := hI1 kv h1
        exact ⟨q, List.mem_append_left _ hq, hqn, hqv⟩
    · intro q hq
      rcases List.mem_append.mp hq with hq1 | hq1
      · obtain ⟨v, hv, hor⟩ := hI2 q hq1
        by_cases heq : parsedName q = parsedName p
        · rw [heq, hf] at hv
          exact absurd hv (by simp)
        · rw [dictFind_dictSet_other d _ _ _ heq]
          exact ⟨v, hv, hor⟩
      · have hqp : q = p := by
          rcases List.mem_cons.mp hq1 with h | h
          · exact h
          · simp at h
        subst hqp
        exact ⟨parsedVer q, dictFind_dictSet_self d _ _, Or.inl rfl⟩
  | some cur =>
    obtain ⟨q0, hq0mem, hq0n, hq0v⟩ :=
      hI1 (parsedName p, cur) (dictFind_some_mem d _ cur hf)
    have hq0p : q0 ≠ p := by
      intro he
      exact hcross q0 hq0mem (by rw [he])
    have hsep0 : SepVer (parsedVer q0) (parsedVer p) := by
      rcases hsepp q0 hq0mem (by rw [hq0n]) with h | h
      · exact absurd h hq0p
      · exact h
    rw [hq0v] at hsep0
    obtain ⟨c, hcmp, hc0⟩ := sepVer_cmp cur (parsedVer p) hsep0
    by_cases hcneg : c < 0
    · refine ⟨dictSet d (parsedName p) (parsedVer p), ?_, ?_, ?_, ?_⟩
      · simp only [stepBest, hsnv, hf, hcmp]
        rw [if_pos hcneg]
      · exact dictSet_keys_nodup d _ _ hnd
      · intro kv hkv
        rcases mem_dictSet_sub d _ _ kv hkv with h1 | h1
        · exact ⟨p, List.mem_append_right seen (List.mem_cons_self p []),
            by rw [h1], by rw [h1]⟩
        · obtain ⟨q, hq, hqn, hqv⟩ := hI1 kv h1
          exact ⟨q, List.mem_append_left _ hq, hqn, hqv⟩
      · intro q hq
        have hanti := cmp_antisym cur (parsedVer p) c hcmp
        rcases List.mem_append.mp hq with hq1 | hq1
        · obtain ⟨v, hv, hor⟩ := hI2 q hq1
          by_cases heq : parsedName q = parsedName p
          · have hvcur : v = cur := by
              rw [heq, hf] at hv
              exact (Option.some.inj hv).symm
            subst hvcur
            refine ⟨parsedVer p, by rw [heq]; exact dictFind_dictSet_self d _ _, ?_⟩
            rcases hor with hv1 | ⟨e, hcve, he0⟩
            · right
              refine ⟨-c, ?_, by omega⟩
              rw [← hv1]
              exact hanti
            · right
              have hqp : q ≠ p := fun he => hcross q hq1 (by rw [he])
              have hsq : SepVer (parsedVer p) (parsedVer q) := by
                rcases hsepp q hq1 heq with h | h
                · exact absurd h hqp
                · exact sepVer_symm _ _ h
              obtain ⟨f, hfcmp, _⟩ := sepVer_cmp (parsedVer p) (parsedVer q) hsq
              refine ⟨f, hfcmp, ?_⟩
              exact cmp_trans_pos (parsedVer p) v (parsedVer q) (-c) e f hanti
                (by omega) hcve he0 hfcmp
          · rw [dictFind_dictSet_other d _ _ _ heq]
            exact ⟨v, hv, hor⟩
        · have hqp : q = p := by
            rcases List.mem_cons.mp hq1 with h | h
            · exact h
            · simp at h
          subst hqp
          exact ⟨parsedVer q, dictFind_dictSet_self d _ _, Or.inl rfl⟩
    · refine ⟨d, ?_, hnd, ?_, ?_⟩
      · simp only [stepBest, hsnv, hf, hcmp]
        rw [if_neg hcneg]
      · intro kv hkv
        obtain ⟨q, hq, hqn, hqv⟩ := hI1 kv hkv
        exact ⟨q, List.mem_append_left _ hq, hqn, hqv⟩
      · intro q hq
        rcases List.mem_append.mp hq with hq1 | hq1
        · exact hI2 q hq1
        · have hqp : q = p := by
            rcases List.mem_cons.mp hq1 with h | h
            · exact h
            · simp at h
          subst hqp
          exact ⟨cur, hf, Or.inr ⟨c, hcmp, by omega⟩⟩

/-- The whole best-version loop succeeds and establishes the invariant when
every package parses, paths are pairwise distinct, and same-family versions
are pairwise separated. -/
theorem buildBest_inv : ∀ (rest seen : List Package) (d : VDict),
    (∀ p ∈ seen ++ rest, ParsesB p) →
    (seen ++ rest).Pairwise (fun p q => p.path ≠ q.path) →
    (∀ p ∈ seen ++ rest, ∀ q ∈ seen ++ rest, parsedName p = parsedName q →
      p = q ∨ SepVer (parsedVer p) (parsedVer q)) →
    BestInv seen d →
    ∃ d2, buildBest d rest = some d2 ∧ BestInv (seen ++ rest) d2 := by
  intro rest
  induction rest with
  | nil =>
    intro seen d _ _ _ hinv
    exact ⟨d, rfl, by simpa using hinv⟩
  | cons p rest' ih =>
    intro seen d hpar hpw hsep hinv
    have hmemp : p ∈ seen ++ p :: rest' :=
      List.mem_append_right seen (List.mem_cons_self p rest')
    have hps := List.pairwise_append.mp hpw
    have hcross : ∀ q ∈ seen, q.path ≠ p.path := fun q hq =>
      hps.2.2 q hq p (List.mem_cons_self p rest')
    obtain ⟨d2, hs2, hinv2⟩ := stepBest_inv seen d p
      (hpar p hmemp)
      hcross
      (fun q hq hn => hsep q (List.mem_append_left _ hq) p hmemp hn)
      hinv
    have hbb : buildBest d (p :: rest') = buildBest d2 rest' := by
      simp only [buildBest, hs2]
    rw [hbb]
    have hassoc : seen ++ p :: rest' = (seen ++ [p]) ++ rest' := by simp
    obtain ⟨d3, hb3, hinv3⟩ := ih (seen ++ [p]) d2
      (by rw [← hassoc]; exact hpar)
      (by rw [← hassoc]; exact hpw)
      (by rw [← hassoc]; exact hsep)
      hinv2
    exact ⟨d3, hb3, by rw [hassoc]; exact hinv3⟩

/-- With the invariant's first two components, a parsing package's path is
among the reconstructed best paths iff the dictionary maps its family name
to exactly its version. -/
theorem bestPaths_mem_iff (packages : List Package) (d : VDict)
    (hpar : ∀ q ∈ packages, ParsesB q)
    (hpw : packages.Pairwise fun p q => p.path ≠ q.path)
    (hnd : (d.map Prod.fst).Nodup)
    (hI1 : ∀ kv ∈ d, ∃ q, q ∈ packages ∧ parsedName q = kv.1 ∧ parsedVer q = kv.2)
    (p : Package) (hp : p ∈ packages) :
    p.path ∈ bestPaths d ↔ dictFind d (parsedName p) = some (parsedVer p) := by
  constructor
  · intro h
    simp only [bestPaths, List.mem_map] at h
    obtain ⟨kv, hkv, hpath⟩ := h
    obtain ⟨q, hq, hqn, hqv⟩ := hI1 kv hkv
    have hqpath : q.path = p.path := by
      rw [(hpar q hq).2, hqn, hqv, hpath]
    have hqp : q = p := pairwise_path_eq packages hpw q hq p hp hqpath
    subst hqp
    have hkveq : kv = (parsedName q, parsedVer q) := by
      rw [hqn, hqv]
    rw [hkveq] at hkv
    exact dictFind_of_mem d hnd _ _ hkv
  · intro h
    have hmem := dictFind_some_mem d _ _ h
    simp only [bestPaths, List.mem_map]
    exact ⟨(parsedName p, parsedVer p), hmem, ((hpar p hp).2).symm⟩

/-- C3 (amended): on inputs whose records all parse and reconstruct
(`ParsesB`), have pairwise distinct paths, and whose same-family version
sequences are pairwise separated at some shared position (`SepVer`),
`determine_best_packages` completes without error and, for every family
name with at least two input records, the result contains exactly one
record of that family, whose version token sequence compares
greater-or-equal (under `compare_version`) to that of every other
same-family input record. -/
theorem c3_best_version_selector (packages : List Package)
    (hgood : GoodInput packages) :
    ∃ result, determine_best_packages packages = some result ∧
      ∀ n : List Char,
        2 ≤ (packages.filter fun q => decide (parsedName q = n)).length →
        (result.filter fun q => decide (parsedName q = n)).length = 1 ∧
        ∀ r ∈ result, parsedName r = n →
          ∀ q ∈ packages, parsedName q = n → q ≠ r →
            ∃ c, compare_version (parsedVer r) (parsedVer q) = some c ∧ 0 ≤ c := by
  obtain ⟨hpar, hpw, hsep⟩ := hgood
  obtain ⟨d, hbb, hinv⟩ := buildBest_inv packages [] []
    (by simpa using hpar) (by simpa using hpw) (by simpa using hsep)
    ⟨by simp, by simp, by simp⟩
  rw [List.nil_append] at hinv
  obtain ⟨hnd, hI1, hI2⟩ := hinv
  refine ⟨packages.filter fun p => decide (p.path ∈ bestPaths d), ?_, ?_⟩
  · simp only [determine_best_packages, hbb]
  · intro n hfam
    have hne : (packages.filter fun q => decide (parsedName q = n)) ≠ [] := by
      intro h
      rw [h] at hfam
      simp at hfam
    obtain ⟨p0, hp0⟩ := List.exists_mem_of_ne_nil _ hne
    have hp0pkg : p0 ∈ packages := (List.mem_filter.mp hp0).1
    have hp0n : parsedName p0 = n := of_decide_eq_true (List.mem_filter.mp hp0).2
    obtain ⟨vb, hvb, hor0⟩ := hI2 p0 hp0pkg
    rw [hp0n] at hvb
    obtain ⟨qb, hqbpkg, hqbn, hqbv⟩ := hI1 (n, vb) (dictFind_some_mem d n vb hvb)
    have hqbbest : qb.path ∈ bestPaths d := by
      apply (bestPaths_mem_iff packages d hpar hpw hnd hI1 qb hqbpkg).mpr
      rw [hqbn, hqbv]
      exact hvb
    have hqbres : qb ∈ packages.filter fun p => decide (p.path ∈ bestPaths d) :=
      List.mem_filter.mpr ⟨hqbpkg, decide_eq_true hqbbest⟩
    have huniq : ∀ r ∈ packages.filter fun p => decide (p.path ∈ bestPaths d),
        parsedName r = n → r = qb := by
      intro r hr hrn
      have hrpkg : r ∈ packages := (List.mem_filter.mp hr).1
      have hrbest : r.path ∈ bestPaths d :=
        of_decide_eq_true (List.mem_filter.mp hr).2
      have hrfind := (bestPaths_mem_iff packages d hpar hpw hnd hI1 r hrpkg).mp hrbest
      rw [hrn, hvb] at hrfind
      have hrv : parsedVer r = vb := (Option.some.inj hrfind).symm
      have hpath : r.path = qb.path := by
        rw [(hpar r hrpkg).2, (hpar qb hqbpkg).2, hrn, hqbn, hrv, hqbv]
      exact pairwise_path_eq packages hpw r hrpkg qb hqbpkg hpath
    have hndpkg : packages.Nodup :=
      hpw.imp fun h he => h (congrArg Package.path he)
    have hndres2 : ((packages.filter fun p => decide (p.path ∈ bestPaths d)).filter
        fun q => decide (parsedName q = n)).Nodup := (hndpkg.filter _).filter _
    have hall : ∀ x ∈ (packages.filter fun p => decide (p.path ∈ bestPaths d)).filter
        fun q => decide (parsedName q = n), x = qb := by
      intro x hx
      exact huniq x (List.mem_filter.mp hx).1
        (of_decide_eq_true (List.mem_filter.mp hx).2)
    have hqbin : qb ∈ (packages.filter fun p => decide (p.path ∈ bestPaths d)).filter
        fun q => decide (parsedName q = n) :=
      List.mem_filter.mpr ⟨hqbres, decide_eq_true hqbn⟩
    refine ⟨?_, ?_⟩
    · rw [nodup_all_eq_singleton _ qb hndres2 hall hqbin]
      rfl
    · intro r hr hrn q hq hqn hqr
      have hrq : r = qb := huniq r hr hrn
      have hrv : parsedVer r = vb := by rw [hrq, hqbv]
      obtain ⟨v, hv, hor⟩ := hI2 q hq
      rw [hqn, hvb] at hv
      have hvvb : v = vb := (Option.some.inj hv).symm
      subst hvvb
      rcases hor with h1 | ⟨c, hc, hc0⟩
      · exfalso
        apply hqr
        apply pairwise_path_eq packages hpw q hq r (List.mem_filter.mp hr).1
        rw [(hpar q hq).2, (hpar r (List.mem_filter.mp hr).1).2, hqn, hrn, ← h1, hrv]
      · exact ⟨c, by rw [hrv]; exact hc, le_of_lt hc0⟩

/-- Closed witness for the amended best-version claim: a two-record family
`/etc/a-1.zip`, `/etc/a-2.zip` satisfies the input assumptions and the
selector's guarantee. -/
theorem c3_witness :
    ∃ result,
      determine_best_packages
          [⟨("/etc/a-1.zip").toList, ("1 MB").toList⟩,
           ⟨("/etc/a-2.zip").toList, ("1 MB").toList⟩] = some result ∧
        ∀ n : List Char,
          2 ≤ (([⟨("/etc/a-1.zip").toList, ("1 MB").toList⟩,
                 ⟨("/etc/a-2.zip").toList, ("1 MB").toList⟩] : List Package).filter
                fun q => decide (parsedName q = n)).length →
          (result.filter fun q => decide (parsedName q = n)).length = 1 ∧
          ∀ r ∈ result, parsedName r = n →
            ∀ q ∈ ([⟨("/etc/a-1.zip").toList, ("1 MB").toList⟩,
                    ⟨("/etc/a-2.zip").toList, ("1 MB").toList⟩] : List Package),
              parsedName q = n → q ≠ r →
              ∃ c, compare_version (parsedVer r) (parsedVer q) = some c ∧ 0 ≤ c := by
  apply c3_best_version_selector
  refine ⟨?_, by decide, ?_⟩
  · intro p hp
    simp only [List.mem_cons, List.not_mem_nil, or_false] at hp
    rcases hp with hp | hp <;> subst hp <;> exact ⟨by decide, by decide⟩
  intro p hp q hq hname
  simp only [List.mem_cons, List.not_mem_nil, or_false] at hp hq
  rcases hp with hp | hp <;> rcases hq with hq | hq <;> subst hp <;> subst hq
  · exact Or.inl rfl
  · exact Or.inr ⟨0, by decide, by decide,
      fun j hj => absurd hj (Nat.not_lt_zero j), by decide, by decide, by decide⟩
  · exact Or.inr ⟨0, by decide, by decide,
      fun j hj => absurd hj (Nat.not_lt_zero j), by decide, by decide, by decide⟩
  · exact Or.inl rfl
